import Mathlib

/-!
Verification of the caching and request-coordination core of the
numerai-model-reviewer repository: the client-side SWR cache
(src/lib/utils/url.ts), the server-side TTL response cache
(src/lib/server/cache.ts), the Cloudflare-worker rate limiter
(worker/src/index.ts) and the GraphQL proxy route
(src/routes/api/numerai/+server.ts), shallowly embedded as pure Lean
functions over explicit state records.  JavaScript Map objects are
modelled as insertion-ordered association lists (set updates in place,
otherwise appends; iteration follows list order), times are Int
(milliseconds or seconds as in the source), and the single-threaded
JavaScript execution model is reflected by making every synchronous
code section one atomic Lean function.
-/

/-! ### JavaScript Map as an insertion-ordered association list -/

/-- Map.get -/
def jsGet (m : List (String × A)) (k : String) : Option A :=
  (m.find? (fun p => p.1 == k)).map (fun p => p.2)

/-- Map.set: update in place if the key is present, otherwise append
(JavaScript Maps preserve insertion order). -/
def jsSet (m : List (String × A)) (k : String) (v : A) : List (String × A) :=
  if (m.find? (fun p => p.1 == k)).isSome then
    m.map (fun p => if p.1 == k then (k, v) else p)
  else
    m ++ [(k, v)]

/-- Map.delete -/
def jsDelete (m : List (String × A)) (k : String) : List (String × A) :=
  m.filter (fun p => ¬ p.1 == k)

/-! ### SWR cache (class SWRCache in src/lib/utils/url.ts)

`CacheEntry.data` is `Option T` because the error path stores
`undefined as T`; `error` is modelled as `Option String`.  The
subscriber mechanism performs no state change relevant to the claims
(callbacks only re-read), so `notifySubscribers` is the identity and
is not modelled. -/

structure SWREntry (T : Type) where
  data : Option T
  error : Option String
  timestamp : Int
  isValidating : Bool
deriving Repr, DecidableEq

structure SWROptions where
  staleTime : Int
  cacheTime : Int
  dedupingInterval : Int
deriving Repr, DecidableEq

/-- DEFAULT_OPTIONS in url.ts (only the timing fields are modelled;
the focus/reconnect booleans drive no modelled state). -/
def DEFAULT_OPTIONS : SWROptions :=
  { staleTime := 5 * 60 * 1000
    cacheTime := 30 * 60 * 1000
    dedupingInterval := 2000 }

/-- The SWRState record returned by SWRCache.get. -/
structure SWRView (T : Type) where
  data : Option T
  error : Option String
  isLoading : Bool
  isValidating : Bool
  isStale : Bool
deriving Repr, DecidableEq

/-- The mutable fields of the SWRCache class.  In-flight promises are
identified by request ids (Nat); `inflight k = some r` models
`inflightRequests.get(k)` returning the promise `r`. -/
structure SWRCacheState (T : Type) where
  cache : List (String × SWREntry T)
  inflight : List (String × Nat)
  lastFetchTime : List (String × Int)
deriving Repr, DecidableEq

def SWRCacheState.empty : SWRCacheState T := ⟨[], [], []⟩

/-- SWRCache.get: classifies the entry and purges it when it is past
cacheTime.  Returns the view together with the possibly-updated state. -/
def SWRCache.get (o : SWROptions) (now : Int) (s : SWRCacheState T)
    (key : String) : SWRView T × SWRCacheState T :=
  match jsGet s.cache key with
  | none => (⟨none, none, false, false, true⟩, s)
  | some entry =>
    if now - entry.timestamp > o.cacheTime then
      (⟨none, none, false, false, true⟩,
        { s with cache := jsDelete s.cache key })
    else
      (⟨entry.data, entry.error, false, entry.isValidating,
        decide (now - entry.timestamp > o.staleTime)⟩, s)

/-- SWRCache.set: replaces data/error, stamps `now`, preserves an
existing isValidating flag. -/
def SWRCache.set (now : Int) (s : SWRCacheState T) (key : String)
    (data : Option T) (error : Option String) : SWRCacheState T :=
  let existing := jsGet s.cache key
  let entry : SWREntry T :=
    { data := data
      error := error
      timestamp := now
      isValidating := (existing.map (fun e => e.isValidating)).getD false }
  { s with cache := jsSet s.cache key entry }

/-- SWRCache.setValidating: only mutates when the entry exists. -/
def SWRCache.setValidating (s : SWRCacheState T) (key : String)
    (b : Bool) : SWRCacheState T :=
  match jsGet s.cache key with
  | none => s
  | some entry =>
    { s with cache := jsSet s.cache key { entry with isValidating := b } }

/-- Result of the synchronous body of SWRCache.fetch: either the call
joined an already in-flight request, returned fresh cached data
without touching the producer, or started (and registered) a new
request, invoking the producer exactly once. -/
inductive FetchOutcome (T : Type) where
  | joined (rid : Nat)
  | cachedFresh (v : T)
  | started (rid : Nat)
deriving Repr, DecidableEq

/-- The synchronous body of SWRCache.fetch, which runs atomically in
the JavaScript event loop: the dedupe-window check, the fresh-cache
check, the join-existing check, and otherwise the registration of a
new request `rid` (marking validating, stamping lastFetchTime and
storing the in-flight promise).  The producer's completion is a
separate later step (`SWRCache.settleRequest`). -/
def SWRCache.fetchStep (o : SWROptions) (now : Int) (rid : Nat)
    (s : SWRCacheState T) (key : String) :
    FetchOutcome T × SWRCacheState T :=
  let lastFetch := (jsGet s.lastFetchTime key).getD 0
  match
    (if now - lastFetch < o.dedupingInterval then jsGet s.inflight key
     else none) with
  | some r => (.joined r, s)
  | none =>
    let gr := SWRCache.get o now s key
    match gr.1.data, gr.1.isStale with
    | some v, false => (.cachedFresh v, gr.2)
    | _, _ =>
      match jsGet gr.2.inflight key with
      | some r => (.joined r, gr.2)
      | none =>
        let s1 := SWRCache.setValidating gr.2 key true
        let s2 := { s1 with lastFetchTime := jsSet s1.lastFetchTime key now }
        (.started rid, { s2 with inflight := jsSet s2.inflight key rid })

/-- The then/catch/finally chain attached to the producer's promise in
SWRCache.fetch, applied when the producer settles with `pr`.  The
first component is what the shared promise itself settles with
(success value, or the rethrown rejection); the second is the cache
state afterwards.  On failure with an existing entry only `error` and
`isValidating` are mutated — `data` and `timestamp` are untouched. -/
def SWRCache.settleRequest (now : Int) (key : String)
    (pr : Except String T) (s : SWRCacheState T) :
    Except String T × SWRCacheState T :=
  match pr with
  | .ok d =>
    let s1 := SWRCache.set now s key (some d) none
    let s2 := { s1 with inflight := jsDelete s1.inflight key }
    (.ok d, SWRCache.setValidating s2 key false)
  | .error e =>
    let s1 :=
      match jsGet s.cache key with
      | some current =>
        let upd := { current with error := some e, isValidating := false }
        { s with cache := jsSet s.cache key upd }
      | none => SWRCache.set now s key none (some e)
    let s2 := { s1 with inflight := jsDelete s1.inflight key }
    (.error e, SWRCache.setValidating s2 key false)

/-- Running a sequence of concurrent fetch calls (time, fresh request
id) with no intervening completion: the synchronous bodies execute
back to back on the event loop. -/
def SWRCache.fetchRun (o : SWROptions) (key : String)
    (calls : List (Int × Nat)) (s : SWRCacheState T) :
    List (FetchOutcome T) × SWRCacheState T :=
  match calls with
  | [] => ([], s)
  | c :: rest =>
    let r := SWRCache.fetchStep o c.1 c.2 s key
    let rr := SWRCache.fetchRun o key rest r.2
    (r.1 :: rr.1, rr.2)

/-- Number of calls in a batch that invoked the producer. -/
def countStarts : List (FetchOutcome T) → Nat
  | [] => 0
  | .started _ :: rest => countStarts rest + 1
  | _ :: rest => countStarts rest

/-! ### JSON values and JSON.stringify with an array replacer

`ServerCache.generateKey` calls
`JSON.stringify(variables, Object.keys(variables).sort())`.  Per the
ECMAScript SerializeJSONObject algorithm, an array replacer acts as a
property whitelist applied at every nesting level, and the keys of
every serialized object are emitted in the order of that list.  The
`Json` type covers exactly the values produced by `JSON.parse` of a
request body (no cycles, no BigInt), on which `JSON.stringify` never
throws. -/

inductive Json where
  | null
  | bool (b : Bool)
  | num (n : Int)
  | str (s : String)
  | arr (elems : List Json)
  | obj (fields : List (String × Json))
deriving Repr, Inhabited

/-- JSON string escaping for the characters relevant here. -/
def escapeChar (c : Char) : String :=
  if c = '"' then "\\\""
  else if c = '\\' then "\\\\"
  else if c = '\n' then "\\n"
  else if c = '\t' then "\\t"
  else if c = '\r' then "\\r"
  else String.singleton c

def quoteStr (s : String) : String :=
  "\"" ++ String.join (s.toList.map escapeChar) ++ "\""

/-- JSON.stringify with property list `props`: objects emit the
properties named in `props`, in `props` order, dropping absent names;
arrays serialize every element. -/
def stringifyWith (props : List String) : Json → String
  | .null => "null"
  | .bool b => if b then "true" else "false"
  | .num n => toString n
  | .str s => quoteStr s
  | .arr xs =>
    "[" ++ String.intercalate ","
      (xs.attach.map (fun x => stringifyWith props x.1)) ++ "]"
  | .obj fs =>
    "\x7b" ++ String.intercalate ","
      (((props.filterMap (fun k => fs.find? (fun q => q.1 == k))).attach).map
        (fun p => quoteStr p.1.1 ++ ":" ++ stringifyWith props p.1.2)) ++
      "\x7d"
termination_by j => sizeOf j
decreasing_by
  · have h1 := List.sizeOf_lt_of_mem x.2
    simp only [Json.arr.sizeOf_spec]
    omega
  · rename_i hmem
    have h2 := p.2
    rw [List.mem_filterMap] at h2
    obtain ⟨k, _hk, hf⟩ := h2
    have h3 := List.mem_of_find?_eq_some hf
    have h4 := List.sizeOf_lt_of_mem h3
    have h5 : sizeOf p.1 = 1 + sizeOf p.1.1 + sizeOf p.1.2 := by
      obtain ⟨a, b⟩ := p.1
      simp
    simp only [Json.obj.sizeOf_spec]
    omega

/-- Characters matched by the regular-expression class \s (the ASCII
part; the claims only require invariance under these). -/
def isWs (c : Char) : Bool :=
  c == ' ' || c == '\t' || c == '\n' || c == '\r' || c == '\x0b' ||
    c == '\x0c'

/-- query.replace(/\s+/g, ' '): each maximal whitespace run becomes a
single space.  The Bool argument records whether the previous
character was whitespace (the current run already emitted its space). -/
def collapseWsAux : Bool → List Char → List Char
  | _, [] => []
  | prevWs, c :: rest =>
    if isWs c then
      if prevWs then collapseWsAux true rest
      else ' ' :: collapseWsAux true rest
    else c :: collapseWsAux false rest

/-- String.prototype.trim: strip leading and trailing whitespace. -/
def trimChars (l : List Char) : List Char :=
  ((l.dropWhile isWs).reverse.dropWhile isWs).reverse

/-- query.replace(/\s+/g, ' ').trim() -/
def normalizeQuery (q : String) : String :=
  String.mk (trimChars (collapseWsAux false q.toList))

/-- Object.keys(variables).sort(): JavaScript default sort is
lexicographic string comparison. -/
def sortedKeys (vs : List (String × Json)) : List String :=
  (vs.map (fun p => p.1)).mergeSort (fun a b => decide (a ≤ b))

/-- ServerCache.generateKey.  `variables` is `none` when the request
carried no variables object (`variables ? ... : ''`). -/
def ServerCache.generateKey (query : String)
    (vars : Option (List (String × Json))) : String :=
  let normalizedQuery := normalizeQuery query
  let varsString :=
    match vars with
    | some vs => stringifyWith (sortedKeys vs) (Json.obj vs)
    | none => ""
  normalizedQuery ++ "::" ++ varsString

/-! ### Query-type detection and TTL table (src/lib/server/cache.ts) -/

def lowerStr (s : String) : String :=
  String.mk (s.toList.map Char.toLower)

def listHasInfix (needle : List Char) : List Char → Bool
  | [] => needle.isEmpty
  | c :: rest => List.isPrefixOf needle (c :: rest) || listHasInfix needle rest

/-- String.prototype.includes -/
def strIncludes (s sub : String) : Bool :=
  listHasInfix sub.toList s.toList

inductive QueryType where
  | userSearch
  | userModels
  | modelPerformance
  | accountProfile
  | leaderboard
  | defaultType
deriving Repr, DecidableEq

/-- CACHE_TTLS (milliseconds); `defaultType` embeds the source's
`default` bucket. -/
def CACHE_TTLS : QueryType → Int
  | .userSearch => 15 * 60 * 1000
  | .userModels => 10 * 60 * 1000
  | .modelPerformance => 5 * 60 * 1000
  | .accountProfile => 10 * 60 * 1000
  | .leaderboard => 5 * 60 * 1000
  | .defaultType => 5 * 60 * 1000

/-- ServerCache.detectQueryType -/
def ServerCache.detectQueryType (query : String) : QueryType :=
  let normalizedQuery := lowerStr query
  if strIncludes normalizedQuery "accountleaderboard" then .leaderboard
  else if strIncludes normalizedQuery "accountprofile" then
    (if strIncludes normalizedQuery "models" then .userModels
     else .accountProfile)
  else if strIncludes normalizedQuery "v3userprofile" then
    (if strIncludes normalizedQuery "roundmodelperformances" then
       .modelPerformance
     else .userModels)
  else if strIncludes normalizedQuery "search" then .userSearch
  else .defaultType

/-! ### ServerCache (src/lib/server/cache.ts) -/

structure SCEntry (T : Type) where
  data : T
  expires : Int
  staleAt : Int
deriving Repr, DecidableEq

structure CacheConfig where
  defaultTTL : Int
  staleWindow : Int
  maxEntries : Nat
deriving Repr, DecidableEq

def DEFAULT_CONFIG : CacheConfig :=
  { defaultTTL := 5 * 60 * 1000
    staleWindow := 60 * 1000
    maxEntries := 1000 }

/-- The data served by ServerCache.get. -/
structure CachedResult (T : Type) where
  data : T
  isStale : Bool
deriving Repr, DecidableEq

structure ServerCacheState (T : Type) where
  cache : List (String × SCEntry T)
  accessOrder : List String
deriving Repr, DecidableEq

def ServerCacheState.empty : ServerCacheState T := ⟨[], []⟩

def ServerCache.removeFromAccessOrder (s : ServerCacheState T)
    (key : String) : ServerCacheState T :=
  { s with accessOrder := s.accessOrder.filter (fun k => ¬ k == key) }

def ServerCache.updateAccessOrder (s : ServerCacheState T)
    (key : String) : ServerCacheState T :=
  let s1 := ServerCache.removeFromAccessOrder s key
  { s1 with accessOrder := s1.accessOrder ++ [key] }

def ServerCache.evictOldest (s : ServerCacheState T) : ServerCacheState T :=
  match s.accessOrder with
  | [] => s
  | oldestKey :: rest => { cache := jsDelete s.cache oldestKey, accessOrder := rest }

/-- ServerCache.get: purge when past expires + staleWindow, otherwise
touch the recency list and report `isStale = now > staleAt`. -/
def ServerCache.get (cfg : CacheConfig) (now : Int) (s : ServerCacheState T)
    (key : String) : Option (CachedResult T) × ServerCacheState T :=
  match jsGet s.cache key with
  | none => (none, s)
  | some entry =>
    if now > entry.expires + cfg.staleWindow then
      (none, ServerCache.removeFromAccessOrder
        { s with cache := jsDelete s.cache key } key)
    else
      (some ⟨entry.data, decide (now > entry.staleAt)⟩,
        ServerCache.updateAccessOrder s key)

/-- ServerCache.set: evict the head of the recency list when inserting
a new key at capacity, then store
`expires = now + ttl, staleAt = now + ttl - staleWindow`. -/
def ServerCache.set (cfg : CacheConfig) (now : Int) (s : ServerCacheState T)
    (key : String) (data : T) (ttl : Option Int) : ServerCacheState T :=
  let effectiveTTL := ttl.getD cfg.defaultTTL
  let s1 :=
    if s.cache.length ≥ cfg.maxEntries ∧ (jsGet s.cache key).isNone then
      ServerCache.evictOldest s
    else s
  let entry : SCEntry T :=
    { data := data
      expires := now + effectiveTTL
      staleAt := now + effectiveTTL - cfg.staleWindow }
  ServerCache.updateAccessOrder { s1 with cache := jsSet s1.cache key entry } key

def ServerCache.deleteKey (s : ServerCacheState T) (key : String) :
    ServerCacheState T :=
  let s1 := ServerCache.removeFromAccessOrder s key
  { s1 with cache := jsDelete s1.cache key }

def ServerCache.clear (_s : ServerCacheState T) : ServerCacheState T :=
  ServerCacheState.empty

/-- One ServerCache operation, for reasoning about arbitrary call
sequences. -/
inductive SCOp (T : Type) where
  | get (key : String) (now : Int)
  | set (key : String) (data : T) (ttl : Option Int) (now : Int)
  | del (key : String)
  | clear
deriving Repr

def ServerCache.applyOp (cfg : CacheConfig) (s : ServerCacheState T) :
    SCOp T → ServerCacheState T
  | .get key now => (ServerCache.get cfg now s key).2
  | .set key data ttl now => ServerCache.set cfg now s key data ttl
  | .del key => ServerCache.deleteKey s key
  | .clear => ServerCache.clear s

def ServerCache.runOps (cfg : CacheConfig) (s : ServerCacheState T) :
    List (SCOp T) → ServerCacheState T
  | [] => s
  | op :: rest => ServerCache.runOps cfg (ServerCache.applyOp cfg s op) rest

/-- Ghost instrumentation recording, for every key, the step index of
its last touch (get-hit or set), used only to state the recency
property; `tick` is the next step index. -/
structure SCGhost where
  lastTouch : String → Nat
  tick : Nat

/-- The key an operation touches (moves to the back of the recency
list): a set always, a get only when it finds a live entry. -/
def ServerCache.touchedKey (cfg : CacheConfig) (s : ServerCacheState T) :
    SCOp T → Option String
  | .get key now =>
    match jsGet s.cache key with
    | none => none
    | some entry =>
      if now > entry.expires + cfg.staleWindow then none else some key
  | .set key _ _ _ => some key
  | .del _ => none
  | .clear => none

def ServerCache.stepG (cfg : CacheConfig)
    (sg : ServerCacheState T × SCGhost) (op : SCOp T) :
    ServerCacheState T × SCGhost :=
  let t? := ServerCache.touchedKey cfg sg.1 op
  (ServerCache.applyOp cfg sg.1 op,
    { lastTouch := fun x => if t? = some x then sg.2.tick else sg.2.lastTouch x
      tick := sg.2.tick + 1 })

def ServerCache.runG (cfg : CacheConfig)
    (sg : ServerCacheState T × SCGhost) :
    List (SCOp T) → ServerCacheState T × SCGhost
  | [] => sg
  | op :: rest => ServerCache.runG cfg (ServerCache.stepG cfg sg op) rest

/-! ### Worker rate limiter (worker/src/index.ts)

Times are epoch seconds (Int).  The KV namespace is modelled as a map
with sequentially visible writes; a call where the KV store errors
(`kvOk = false`) falls through to the in-memory path without touching
KV, exactly like the try/catch in checkRateLimit.  KV entries are
written with a TTL equal to the window; the model keeps them (they are
never read again, since the key embeds the window start). -/

structure RateLimitEntry where
  count : Nat
  resetAt : Int
deriving Repr, DecidableEq

structure RLResult where
  allowed : Bool
  remaining : Int
  resetAt : Int
  retryAfter : Option Int
deriving Repr, DecidableEq

structure WorkerRLConfig where
  limit : Nat
  windowSeconds : Int
  hasKV : Bool
deriving Repr, DecidableEq

structure WorkerRLState where
  kv : List (String × RateLimitEntry)
  mem : List (String × RateLimitEntry)
  lastCleanup : Int
deriving Repr, DecidableEq

def WorkerRLState.empty : WorkerRLState := ⟨[], [], 0⟩

def MAX_IN_MEMORY_RATE_LIMIT_ENTRIES : Nat := 10000

/-- cleanupInMemoryRateLimit: at most once per day, drop entries whose
window has elapsed. -/
def cleanupInMemoryRateLimit (nowSeconds : Int) (s : WorkerRLState) :
    WorkerRLState :=
  if nowSeconds - s.lastCleanup < 24 * 60 * 60 then s
  else
    { s with
      lastCleanup := nowSeconds
      mem := s.mem.filter (fun p => ¬ p.2.resetAt ≤ nowSeconds) }

/-- The while-loop of ensureInMemoryLimitCapacity: evict the first
(oldest-inserted) key while the size is still at or above `M`. -/
def evictLoop (M : Nat) : List (String × RateLimitEntry) →
    List (String × RateLimitEntry)
  | [] => []
  | x :: rest =>
    if (x :: rest).length < M then x :: rest else evictLoop M rest

/-- ensureInMemoryLimitCapacity: below the ceiling do nothing;
otherwise purge expired entries first, then evict arbitrary (oldest
inserted) entries until under the ceiling. -/
def ensureInMemoryLimitCapacity (nowSeconds : Int)
    (mem : List (String × RateLimitEntry)) :
    List (String × RateLimitEntry) :=
  if mem.length < MAX_IN_MEMORY_RATE_LIMIT_ENTRIES then mem
  else
    evictLoop MAX_IN_MEMORY_RATE_LIMIT_ENTRIES
      (mem.filter (fun p => ¬ p.2.resetAt ≤ nowSeconds))

def windowStartOf (cfg : WorkerRLConfig) (now : Int) : Int :=
  now - now % cfg.windowSeconds

def rateKey (ip : String) (windowStart : Int) : String :=
  "rate:" ++ ip ++ ":" ++ toString windowStart

/-- checkRateLimit (worker): KV path when configured and reachable,
otherwise the in-memory fallback.  Note the fallback's `remaining` is
the literal `limit - 1` of the source. -/
def checkRateLimit (cfg : WorkerRLConfig) (ip : String) (now : Int)
    (kvOk : Bool) (s0 : WorkerRLState) : RLResult × WorkerRLState :=
  let s := cleanupInMemoryRateLimit now s0
  let windowStart := windowStartOf cfg now
  let resetAt := windowStart + cfg.windowSeconds
  let key := rateKey ip windowStart
  if cfg.hasKV && kvOk then
    let current := ((jsGet s.kv key).map (fun e => e.count)).getD 0
    if current ≥ cfg.limit then
      (⟨false, 0, resetAt, some (resetAt - now)⟩, s)
    else
      (⟨true, (cfg.limit : Int) - current - 1, resetAt, none⟩,
        { s with kv := jsSet s.kv key ⟨current + 1, resetAt⟩ })
  else
    let existing := jsGet s.mem key
    let current := ((existing.map (fun e => e.count))).getD 0
    let existingReset := ((existing.map (fun e => e.resetAt))).getD resetAt
    let s :=
      if existing.isSome && decide (existingReset ≠ resetAt) then
        { s with mem := jsDelete s.mem key }
      else s
    if current ≥ cfg.limit then
      (⟨false, 0, resetAt, some (resetAt - now)⟩, s)
    else
      let s := { s with mem := ensureInMemoryLimitCapacity now s.mem }
      (⟨true, (cfg.limit : Int) - 1, resetAt, none⟩,
        { s with mem := jsSet s.mem key ⟨current + 1, resetAt⟩ })

/-- One inbound call: caller IP, time, and whether KV was reachable
for this call. -/
structure RLCall where
  ip : String
  now : Int
  kvOk : Bool
deriving Repr, DecidableEq

def RLCall.key (cfg : WorkerRLConfig) (c : RLCall) : String :=
  rateKey c.ip (windowStartOf cfg c.now)

/-- Run a call sequence, collecting each call with its result. -/
def runRL (cfg : WorkerRLConfig) (s : WorkerRLState) :
    List RLCall → List (RLCall × RLResult) × WorkerRLState
  | [] => ([], s)
  | c :: rest =>
    let r := checkRateLimit cfg c.ip c.now c.kvOk s
    let rr := runRL cfg r.2 rest
    ((c, r.1) :: rr.1, rr.2)

/-- Number of allowed results among the calls whose counter key is `k`. -/
def countAllowedKey (cfg : WorkerRLConfig) (k : String)
    (results : List (RLCall × RLResult)) : Nat :=
  (results.filter (fun p => p.1.key cfg == k && p.2.allowed)).length

/-! ### GraphQL proxy route (src/routes/api/numerai/+server.ts)

The route has its own in-memory limiter (sliding per-entry resetAt,
not the worker's aligned windows) and consults the ServerCache
singleton; authenticated requests must bypass it entirely. -/

def RATE_LIMIT_MAX : Nat := 60

def RATE_LIMIT_WINDOW_MS : Int := 60 * 1000

structure RouteRLState where
  rateLimit : List (String × RateLimitEntry)
  lastCleanup : Int
deriving Repr, DecidableEq

def routeCleanupRateLimit (now : Int) (s : RouteRLState) : RouteRLState :=
  if now - s.lastCleanup < 24 * 60 * 60 * 1000 then s
  else
    { lastCleanup := now
      rateLimit := s.rateLimit.filter (fun p => ¬ p.2.resetAt ≤ now) }

/-- checkRateLimit (route). -/
def routeCheckRateLimit (now : Int) (key : String) (s0 : RouteRLState) :
    RLResult × RouteRLState :=
  let s := routeCleanupRateLimit now s0
  let fresh :=
    (⟨true, (RATE_LIMIT_MAX : Int) - 1, now + RATE_LIMIT_WINDOW_MS, none⟩,
      { s with rateLimit :=
          jsSet s.rateLimit key ⟨1, now + RATE_LIMIT_WINDOW_MS⟩ })
  match jsGet s.rateLimit key with
  | none => fresh
  | some entry =>
    if now > entry.resetAt then fresh
    else if entry.count ≥ RATE_LIMIT_MAX then
      (⟨false, 0, entry.resetAt,
          some (max 1 ((entry.resetAt - now + 999) / 1000))⟩, s)
    else
      (⟨true, (RATE_LIMIT_MAX : Int) - (entry.count + 1), entry.resetAt, none⟩,
        { s with rateLimit :=
            jsSet s.rateLimit key ⟨entry.count + 1, entry.resetAt⟩ })

/-- JavaScript truthiness on JSON values (`!result.errors`). -/
def jsTruthy : Json → Bool
  | .null => false
  | .bool b => b
  | .num n => decide (n ≠ 0)
  | .str s => decide (s ≠ "")
  | .arr _ => true
  | .obj _ => true

def resultHasErrors (j : Json) : Bool :=
  match j with
  | .obj fs =>
    match jsGet fs "errors" with
    | some v => jsTruthy v
    | none => false
  | _ => false

def truthyOptStr : Option String → Bool
  | none => false
  | some s => decide (s ≠ "")

/-- The parsed POST body `{ query, variables, publicId, secretKey }`. -/
structure PostBody where
  query : Option String
  vars : Option (List (String × Json))
  publicId : Option String
  secretKey : Option String

/-- `const hasAuth = !!(publicId && secretKey)` -/
def PostBody.hasAuth (b : PostBody) : Bool :=
  truthyOptStr b.publicId && truthyOptStr b.secretKey

/-- shouldSkipCache (src/lib/server/cache.ts): skip for authenticated
requests. -/
def shouldSkipCache (hasAuth : Bool) : Bool :=
  hasAuth

inductive PostResponse where
  | rateLimited (retryAfter : Option Int)
  | badRequest
  | cacheHit (data : Json) (stale : Bool)
  | upstreamError (status : Nat)
  | upstreamResult (result : Json)
deriving Repr

structure ProxyState where
  route : RouteRLState
  serverCache : ServerCacheState Json

/-- The POST handler.  `upstream` is the response the Numerai API
would give this request (`.error status` for a non-ok response); it is
consulted only on the fetch path. -/
def handlePOST (now : Int) (ip : String) (req : PostBody)
    (upstream : Except Nat Json) (s0 : ProxyState) :
    PostResponse × ProxyState :=
  let rl := routeCheckRateLimit now ip s0.route
  let s := { s0 with route := rl.2 }
  if ¬ rl.1.allowed then (.rateLimited rl.1.retryAfter, s)
  else
    match req.query with
    | none => (.badRequest, s)
    | some q =>
      if q = "" then (.badRequest, s)
      else
        let hasAuth := req.hasAuth
        let cacheKey := ServerCache.generateKey q req.vars
        let fetchPath : ServerCacheState Json → PostResponse × ProxyState :=
          fun sc =>
            match upstream with
            | .error status => (.upstreamError status, { s with serverCache := sc })
            | .ok result =>
              if ¬ shouldSkipCache hasAuth = true ∧ ¬ resultHasErrors result = true then
                let queryType := ServerCache.detectQueryType q
                let ttl := CACHE_TTLS queryType
                let sc2 :=
                  ServerCache.set DEFAULT_CONFIG now sc cacheKey result (some ttl)
                (.upstreamResult result, { s with serverCache := sc2 })
              else (.upstreamResult result, { s with serverCache := sc })
        if ¬ shouldSkipCache hasAuth = true then
          let gr := ServerCache.get DEFAULT_CONFIG now s.serverCache cacheKey
          match gr.1 with
          | some c => (.cacheHit c.data c.isStale, { s with serverCache := gr.2 })
          | none => fetchPath gr.2
        else fetchPath s.serverCache

/-! ### Equivalences used to state the key-canonicalization claim -/

/-- Two character sequences that are identical up to cosmetic
whitespace differences: the same interleaving of non-whitespace
characters and (non-empty) whitespace runs, where corresponding runs
may differ in length and in which whitespace characters they use. -/
inductive WsEquiv : List Char → List Char → Prop where
  | nil : WsEquiv [] []
  | cons (c : Char) (l1 l2 : List Char) (hc : isWs c = false)
      (h : WsEquiv l1 l2) : WsEquiv (c :: l1) (c :: l2)
  | ws (r1 r2 l1 l2 : List Char)
      (h1 : r1 ≠ [] ∧ r1.all isWs = true)
      (h2 : r2 ≠ [] ∧ r2.all isWs = true)
      (h : WsEquiv l1 l2) : WsEquiv (r1 ++ l1) (r2 ++ l2)

/-- Two variables objects equal up to the order of their field names
(fields themselves identical). -/
def VarsEquiv : Option (List (String × Json)) →
    Option (List (String × Json)) → Prop
  | none, none => True
  | some fs1, some fs2 => fs1.Perm fs2 ∧ (fs1.map Prod.fst).Nodup
  | _, _ => False

/-- Well-formedness of a ServerCache state: the backing map has no
duplicate keys and the recency list holds exactly the resident keys,
each once. -/
def ServerCache.WF (s : ServerCacheState T) : Prop :=
  (s.cache.map Prod.fst).Nodup ∧ s.accessOrder.Nodup ∧
    ∀ k, k ∈ s.accessOrder ↔ (jsGet s.cache k).isSome = true

/-- Invariant carried through the instrumented run: a well-formed
state whose recency list is strictly ordered by last-touch step index,
all indices being in the past. -/
def ServerCache.GhostInv (sg : ServerCacheState T × SCGhost) : Prop :=
  ServerCache.WF sg.1 ∧
  sg.1.accessOrder.Pairwise
    (fun a b => sg.2.lastTouch a < sg.2.lastTouch b) ∧
  ∀ x, sg.2.lastTouch x < sg.2.tick

/-! ### Association-list (JavaScript Map) lemmas -/

theorem jsGet_nil (k : String) : jsGet ([] : List (String × A)) k = none := by
  simp [jsGet]

theorem jsGet_cons (p : String × A) (m : List (String × A)) (k : String) :
    jsGet (p :: m) k = if p.1 = k then some p.2 else jsGet m k := by
  by_cases h : p.1 = k
  · unfold jsGet
    rw [List.find?_cons_of_pos _ (by simpa using h), if_pos h]
    simp
  · unfold jsGet
    rw [List.find?_cons_of_neg _ (by simpa using h), if_neg h]

theorem jsGet_append_single (m : List (String × A)) (k k2 : String) (v : A) :
    jsGet (m ++ [(k, v)]) k2 =
      if (jsGet m k2).isSome then jsGet m k2
      else if k = k2 then some v else none := by
  induction m with
  | nil =>
    by_cases h : k = k2
    · simp [jsGet_cons, jsGet_nil, h]
    · simp [jsGet_cons, jsGet_nil, h]
  | cons p rest ih =>
    by_cases h : p.1 = k2
    · simp [jsGet_cons, h]
    · simp only [List.cons_append, jsGet_cons, if_neg h, ih]

theorem replaceFun_eq (k : String) (v : A) :
    (fun q : String × A => if q.1 == k then (k, v) else q) =
      (fun q => if q.1 = k then (k, v) else q) := by
  funext q
  simp

theorem jsGet_map_replace (m : List (String × A)) (k : String) (v : A) :
    jsGet (m.map (fun q => if q.1 == k then (k, v) else q)) k =
      if (jsGet m k).isSome then some v else none := by
  rw [replaceFun_eq]
  induction m with
  | nil => simp [jsGet]
  | cons p rest ih =>
    by_cases h : p.1 = k
    · simp [jsGet_cons, h]
    · simp only [List.map_cons, if_neg h, jsGet_cons, ih, jsGet_nil]

theorem jsSet_eq_cases (m : List (String × A)) (k : String) (v : A) :
    jsSet m k v =
      if (jsGet m k).isSome then
        m.map (fun q => if q.1 == k then (k, v) else q)
      else m ++ [(k, v)] := by
  have h : (m.find? (fun p => p.1 == k)).isSome = (jsGet m k).isSome := by
    simp [jsGet]
  simp only [jsSet, h]

theorem jsGet_set_self (m : List (String × A)) (k : String) (v : A) :
    jsGet (jsSet m k v) k = some v := by
  rw [jsSet_eq_cases]
  by_cases h : (jsGet m k).isSome
  · rw [if_pos h, jsGet_map_replace, if_pos h]
  · rw [if_neg h, jsGet_append_single, if_neg h, if_pos rfl]

theorem jsGet_map_replace_ne (m : List (String × A)) (k k2 : String) (v : A)
    (h : k2 ≠ k) :
    jsGet (m.map (fun q => if q.1 == k then (k, v) else q)) k2 =
      jsGet m k2 := by
  rw [replaceFun_eq]
  induction m with
  | nil => simp [jsGet]
  | cons p rest ih =>
    by_cases hp : p.1 = k
    · simp only [List.map_cons, if_pos hp, jsGet_cons, ih]
      rw [if_neg (Ne.symm h), if_neg (by rw [hp]; exact fun hh => h hh.symm)]
    · simp only [List.map_cons, if_neg hp, jsGet_cons, ih]

theorem jsGet_set_ne (m : List (String × A)) (k k2 : String) (v : A)
    (h : k2 ≠ k) : jsGet (jsSet m k v) k2 = jsGet m k2 := by
  rw [jsSet_eq_cases]
  by_cases hs : (jsGet m k).isSome
  · rw [if_pos hs, jsGet_map_replace_ne _ _ _ _ h]
  · rw [if_neg hs, jsGet_append_single, if_neg (Ne.symm h)]
    by_cases h2 : (jsGet m k2).isSome
    · rw [if_pos h2]
    · rw [if_neg h2]
      simp only [Option.not_isSome_iff_eq_none] at h2
      exact h2.symm

theorem jsDelete_cons (p : String × A) (m : List (String × A)) (k : String) :
    jsDelete (p :: m) k =
      if p.1 = k then jsDelete m k else p :: jsDelete m k := by
  by_cases h : p.1 = k <;> simp [jsDelete, List.filter_cons, h]

theorem jsGet_delete_self (m : List (String × A)) (k : String) :
    jsGet (jsDelete m k) k = none := by
  induction m with
  | nil => simp [jsGet, jsDelete]
  | cons p rest ih =>
    rw [jsDelete_cons]
    by_cases h : p.1 = k
    · rw [if_pos h]; exact ih
    · rw [if_neg h, jsGet_cons, if_neg h]; exact ih

theorem jsGet_delete_ne (m : List (String × A)) (k k2 : String)
    (h : k2 ≠ k) : jsGet (jsDelete m k) k2 = jsGet m k2 := by
  induction m with
  | nil => simp [jsDelete]
  | cons p rest ih =>
    rw [jsDelete_cons]
    by_cases hp : p.1 = k
    · rw [if_pos hp, jsGet_cons, if_neg (by rw [hp]; exact Ne.symm h)]
      exact ih
    · rw [if_neg hp, jsGet_cons, jsGet_cons, ih]

theorem jsSet_length (m : List (String × A)) (k : String) (v : A) :
    (jsSet m k v).length =
      if (jsGet m k).isSome then m.length else m.length + 1 := by
  rw [jsSet_eq_cases]
  by_cases h : (jsGet m k).isSome
  · rw [if_pos h, if_pos h, List.length_map]
  · rw [if_neg h, if_neg h, List.length_append, List.length_cons,
      List.length_nil]

theorem jsDelete_length_le (m : List (String × A)) (k : String) :
    (jsDelete m k).length ≤ m.length :=
  List.length_filter_le _ m

/-! ### C7 and C3: entry lifecycle boundaries -/

/-- C7: a value written into the Revalidating Cache (SWRCache) at `t0`
is read back fresh while `t - t0 ≤ staleTime`, stale-but-present while
`staleTime < t - t0 ≤ cacheTime`, and absent (entry purged) once
`t - t0 > cacheTime`. -/
theorem c7_swr_read_lifecycle (T : Type) (o : SWROptions)
    (s0 : SWRCacheState T) (key : String) (v : T) (t0 t : Int)
    (hsc : o.staleTime ≤ o.cacheTime) :
    (t - t0 ≤ o.staleTime →
      (SWRCache.get o t (SWRCache.set t0 s0 key (some v) none) key).1.data =
          some v ∧
      (SWRCache.get o t (SWRCache.set t0 s0 key (some v) none) key).1.isStale =
          false) ∧
    (o.staleTime < t - t0 → t - t0 ≤ o.cacheTime →
      (SWRCache.get o t (SWRCache.set t0 s0 key (some v) none) key).1.data =
          some v ∧
      (SWRCache.get o t (SWRCache.set t0 s0 key (some v) none) key).1.isStale =
          true) ∧
    (o.cacheTime < t - t0 →
      (SWRCache.get o t (SWRCache.set t0 s0 key (some v) none) key).1.data =
          none ∧
      jsGet (SWRCache.get o t (SWRCache.set t0 s0 key (some v) none) key).2.cache
          key = none) := by
  have hset :
      jsGet (SWRCache.set t0 s0 key (some v) none).cache key =
        some ⟨some v, none, t0,
          ((jsGet s0.cache key).map (fun e => e.isValidating)).getD false⟩ := by
    simp [SWRCache.set, jsGet_set_self]
  refine ⟨?_, ?_, ?_⟩
  · intro h1
    simp only [SWRCache.get, hset]
    rw [if_neg (by omega)]
    refine ⟨rfl, by simp; omega⟩
  · intro h1 h2
    simp only [SWRCache.get, hset]
    rw [if_neg (by omega)]
    refine ⟨rfl, by simp; omega⟩
  · intro h1
    simp only [SWRCache.get, hset]
    rw [if_pos (by omega)]
    exact ⟨rfl, by simp [jsGet_delete_self]⟩

/-- C7 witness: the spec scenario staleAfter = 5 min, cacheTime = 30
min; reads at t0+4min, t0+6min, t0+31min. -/
theorem c7_swr_read_lifecycle_witness :
    ((240000 : Int) - 0 ≤ DEFAULT_OPTIONS.staleTime →
      (SWRCache.get DEFAULT_OPTIONS 240000
        (SWRCache.set 0 (SWRCacheState.empty (T := Nat)) "k" (some 7) none)
        "k").1.data = some 7 ∧
      (SWRCache.get DEFAULT_OPTIONS 240000
        (SWRCache.set 0 (SWRCacheState.empty (T := Nat)) "k" (some 7) none)
        "k").1.isStale = false) ∧
    (DEFAULT_OPTIONS.staleTime < (360000 : Int) - 0 →
      (360000 : Int) - 0 ≤ DEFAULT_OPTIONS.cacheTime →
      (SWRCache.get DEFAULT_OPTIONS 360000
        (SWRCache.set 0 (SWRCacheState.empty (T := Nat)) "k" (some 7) none)
        "k").1.data = some 7 ∧
      (SWRCache.get DEFAULT_OPTIONS 360000
        (SWRCache.set 0 (SWRCacheState.empty (T := Nat)) "k" (some 7) none)
        "k").1.isStale = true) ∧
    (DEFAULT_OPTIONS.cacheTime < (1860000 : Int) - 0 →
      (SWRCache.get DEFAULT_OPTIONS 1860000
        (SWRCache.set 0 (SWRCacheState.empty (T := Nat)) "k" (some 7) none)
        "k").1.data = none ∧
      jsGet (SWRCache.get DEFAULT_OPTIONS 1860000
        (SWRCache.set 0 (SWRCacheState.empty (T := Nat)) "k" (some 7) none)
        "k").2.cache "k" = none) := by
  have h4 := c7_swr_read_lifecycle Nat DEFAULT_OPTIONS SWRCacheState.empty
    "k" 7 0 240000 (by decide)
  have h6 := c7_swr_read_lifecycle Nat DEFAULT_OPTIONS SWRCacheState.empty
    "k" 7 0 360000 (by decide)
  have h31 := c7_swr_read_lifecycle Nat DEFAULT_OPTIONS SWRCacheState.empty
    "k" 7 0 1860000 (by decide)
  exact ⟨h4.1, h6.2.1, h31.2.2⟩

/-- C3 counterexample: config staleWindow = 10; a key set at t0 = 0
with ttl = 100 and read at now = 95 comes back with isStale = true,
although the claim's formula `isStale = (now > t0 + ttl)` demands
false (95 is not past the hard expiry 100): the code flips the stale
flag at `t0 + ttl - staleWindow`, not at `t0 + ttl`. -/
theorem c3_counterexample :
    (ServerCache.get ⟨1000, 10, 1000⟩ 95
        (ServerCache.set ⟨1000, 10, 1000⟩ 0 ServerCacheState.empty "k"
          (42 : Nat) (some 100)) "k").1 = some ⟨42, true⟩ ∧
      ¬ ((95 : Int) > 0 + 100) := by
  exact ⟨rfl, by decide⟩

/-- C3 (amended): for an entry set at `t0` with TTL `ttl`, a get at
`now` is absent iff `now > t0 + ttl + staleWindow` (purging the entry
then), a never-set key reads absent, and otherwise the value is
returned with `isStale = (now > t0 + ttl - staleWindow)` — the stale
flag flips a full staleWindow BEFORE the hard expiry `t0 + ttl`, not
at it as the original claim stated. -/
theorem c3_response_cache_get_boundaries (T : Type) (cfg : CacheConfig)
    (s0 : ServerCacheState T) (key : String) (v : T) (ttl t0 now : Int) :
    ((ServerCache.get cfg now
        (ServerCache.set cfg t0 s0 key v (some ttl)) key).1 = none ↔
      now > t0 + ttl + cfg.staleWindow) ∧
    (now > t0 + ttl + cfg.staleWindow →
      jsGet (ServerCache.get cfg now
        (ServerCache.set cfg t0 s0 key v (some ttl)) key).2.cache key = none) ∧
    (¬ now > t0 + ttl + cfg.staleWindow →
      (ServerCache.get cfg now
        (ServerCache.set cfg t0 s0 key v (some ttl)) key).1 =
        some ⟨v, decide (now > t0 + ttl - cfg.staleWindow)⟩) ∧
    (∀ (s2 : ServerCacheState T) (k2 : String), jsGet s2.cache k2 = none →
      (ServerCache.get cfg now s2 k2).1 = none) := by
  have hset :
      jsGet (ServerCache.set cfg t0 s0 key v (some ttl)).cache key =
        some ⟨v, t0 + ttl, t0 + ttl - cfg.staleWindow⟩ := by
    simp [ServerCache.set, ServerCache.updateAccessOrder,
      ServerCache.removeFromAccessOrder, jsGet_set_self]
  refine ⟨?_, ?_, ?_, ?_⟩
  · simp only [ServerCache.get, hset]
    by_cases h : now > t0 + ttl + cfg.staleWindow
    · rw [if_pos (by omega)]
      simpa using h
    · rw [if_neg (by omega)]
      simpa using h
  · intro h
    simp only [ServerCache.get, hset]
    rw [if_pos (by omega)]
    simp [ServerCache.removeFromAccessOrder, jsGet_delete_self]
  · intro h
    simp only [ServerCache.get, hset]
    rw [if_neg (by omega)]
  · intro s2 k2 h
    simp [ServerCache.get, h]

/-- C3 witness: staleWindow = 10, ttl = 100, reads at now = 105 (in
the grace window, stale) and now = 111 (absent, purged). -/
theorem c3_response_cache_get_boundaries_witness :
    (¬ (105 : Int) > 0 + 100 + (10 : Int) →
      (ServerCache.get ⟨1000, 10, 1000⟩ 105
        (ServerCache.set ⟨1000, 10, 1000⟩ 0 ServerCacheState.empty "k"
          (42 : Nat) (some 100)) "k").1 =
        some ⟨42, decide ((105 : Int) > 0 + 100 - 10)⟩) ∧
    ((111 : Int) > 0 + 100 + (10 : Int) →
      jsGet (ServerCache.get ⟨1000, 10, 1000⟩ 111
        (ServerCache.set ⟨1000, 10, 1000⟩ 0 ServerCacheState.empty "k"
          (42 : Nat) (some 100)) "k").2.cache "k" = none) := by
  have h105 := c3_response_cache_get_boundaries Nat ⟨1000, 10, 1000⟩
    ServerCacheState.empty "k" 42 100 0 105
  have h111 := c3_response_cache_get_boundaries Nat ⟨1000, 10, 1000⟩
    ServerCacheState.empty "k" 42 100 0 111
  exact ⟨h105.2.2.1, h111.2.1⟩

/-! ### C2: stale-serve-on-error -/

/-- C2: with a populated entry (data = some v, still within cacheTime)
and no fetch in flight, a stale-triggered fetch whose producer rejects
(1) starts exactly one request, (2) settles the shared promise with
the same rejection (rethrown to every caller holding it), (3) leaves
the entry's data and timestamp unchanged while recording the error,
so a subsequent get still serves `some v` together with the error,
and (4) drops the in-flight registry entry. -/
theorem c2_swr_stale_serve_on_error (T : Type) (o : SWROptions)
    (s : SWRCacheState T) (key : String) (v : T) (e : SWREntry T)
    (rid : Nat) (t1 t2 : Int) (err : String)
    (hin : jsGet s.inflight key = none)
    (hent : jsGet s.cache key = some e)
    (hdata : e.data = some v)
    (hstale : t1 - e.timestamp > o.staleTime)
    (hlive : t1 - e.timestamp ≤ o.cacheTime)
    (hlive2 : t2 - e.timestamp ≤ o.cacheTime) :
    (SWRCache.fetchStep o t1 rid s key).1 = .started rid ∧
    (SWRCache.settleRequest t2 key (.error err)
        (SWRCache.fetchStep o t1 rid s key).2).1 = .error err ∧
    jsGet (SWRCache.settleRequest t2 key (.error err)
        (SWRCache.fetchStep o t1 rid s key).2).2.cache key =
      some ⟨some v, some err, e.timestamp, false⟩ ∧
    (SWRCache.get o t2 (SWRCache.settleRequest t2 key (.error err)
        (SWRCache.fetchStep o t1 rid s key).2).2 key).1.data = some v ∧
    (SWRCache.get o t2 (SWRCache.settleRequest t2 key (.error err)
        (SWRCache.fetchStep o t1 rid s key).2).2 key).1.error = some err ∧
    jsGet (SWRCache.settleRequest t2 key (.error err)
        (SWRCache.fetchStep o t1 rid s key).2).2.inflight key = none := by
  have hnotexp : ¬ (t1 - e.timestamp > o.cacheTime) := by omega
  have hget : SWRCache.get o t1 s key =
      (⟨e.data, e.error, false, e.isValidating,
        decide (t1 - e.timestamp > o.staleTime)⟩, s) := by
    simp only [SWRCache.get, hent]
    rw [if_neg hnotexp]
  have hstaleb : decide (t1 - e.timestamp > o.staleTime) = true := by
    simpa using hstale
  have hstep : SWRCache.fetchStep o t1 rid s key =
      (.started rid,
        { cache := jsSet s.cache key ⟨e.data, e.error, e.timestamp, true⟩
          inflight := jsSet s.inflight key rid
          lastFetchTime := jsSet s.lastFetchTime key t1 }) := by
    simp only [SWRCache.fetchStep, hin, ite_self, hget, hdata, hstaleb,
      SWRCache.setValidating, hent]
  rw [hstep]
  have hent2 : jsGet (jsSet s.cache key
      (⟨e.data, e.error, e.timestamp, true⟩ : SWREntry T)) key =
      some ⟨e.data, e.error, e.timestamp, true⟩ := jsGet_set_self _ _ _
  have hsettle : SWRCache.settleRequest t2 key (.error err)
      ({ cache := jsSet s.cache key ⟨e.data, e.error, e.timestamp, true⟩
         inflight := jsSet s.inflight key rid
         lastFetchTime := jsSet s.lastFetchTime key t1 } : SWRCacheState T) =
      (.error err,
        { cache := jsSet (jsSet (jsSet s.cache key
              ⟨e.data, e.error, e.timestamp, true⟩) key
              ⟨e.data, some err, e.timestamp, false⟩) key
              ⟨e.data, some err, e.timestamp, false⟩
          inflight := jsDelete (jsSet s.inflight key rid) key
          lastFetchTime := jsSet s.lastFetchTime key t1 }) := by
    simp only [SWRCache.settleRequest, hent2, SWRCache.setValidating]
    rw [jsGet_set_self]
  rw [hsettle]
  have hfin : jsGet (jsSet (jsSet (jsSet s.cache key
      (⟨e.data, e.error, e.timestamp, true⟩ : SWREntry T)) key
      ⟨e.data, some err, e.timestamp, false⟩) key
      ⟨e.data, some err, e.timestamp, false⟩) key =
      some ⟨e.data, some err, e.timestamp, false⟩ := jsGet_set_self _ _ _
  refine ⟨rfl, rfl, ?_, ?_, ?_, ?_⟩
  · rw [hfin, hdata]
  · simp only [SWRCache.get, hfin]
    rw [if_neg (by omega)]
    exact hdata
  · simp only [SWRCache.get, hfin]
    rw [if_neg (by omega)]
  · exact jsGet_delete_self _ _

/-- C2 witness: entry written at 0, fetch at t1 = 400000 (stale under
default options), producer fails with "boom", read back at t2. -/
theorem c2_swr_stale_serve_on_error_witness :
    jsGet (SWRCacheState.empty (T := Nat)).inflight "k" = none ∧
    jsGet (SWRCache.set 0 (SWRCacheState.empty (T := Nat)) "k" (some 7)
        none).cache "k" = some ⟨some 7, none, 0, false⟩ ∧
    (SWRCache.get DEFAULT_OPTIONS 400001
      (SWRCache.settleRequest 400001 "k" (.error "boom")
        (SWRCache.fetchStep DEFAULT_OPTIONS 400000 5
          (SWRCache.set 0 (SWRCacheState.empty (T := Nat)) "k" (some 7) none)
          "k").2).2 "k").1.data = some 7 ∧
    (SWRCache.get DEFAULT_OPTIONS 400001
      (SWRCache.settleRequest 400001 "k" (.error "boom")
        (SWRCache.fetchStep DEFAULT_OPTIONS 400000 5
          (SWRCache.set 0 (SWRCacheState.empty (T := Nat)) "k" (some 7) none)
          "k").2).2 "k").1.error = some "boom" := by
  have happ := c2_swr_stale_serve_on_error Nat DEFAULT_OPTIONS
    (SWRCache.set 0 (SWRCacheState.empty (T := Nat)) "k" (some 7) none)
    "k" 7 ⟨some 7, none, 0, false⟩ 5 400000 400001 "boom"
    (by rfl) (by rfl) (by rfl) (by decide) (by decide) (by decide)
  exact ⟨rfl, rfl, happ.2.2.2.1, happ.2.2.2.2.1⟩

/-! ### C1: deduplication of concurrent fetches -/

theorem SWRCache.get_inflight (o : SWROptions) (now : Int)
    (s : SWRCacheState T) (key : String) :
    (SWRCache.get o now s key).2.inflight = s.inflight := by
  unfold SWRCache.get
  cases h : jsGet s.cache key with
  | none => rfl
  | some e =>
    dsimp only
    split <;> rfl

theorem SWRCache.get_lastFetchTime (o : SWROptions) (now : Int)
    (s : SWRCacheState T) (key : String) :
    (SWRCache.get o now s key).2.lastFetchTime = s.lastFetchTime := by
  unfold SWRCache.get
  cases h : jsGet s.cache key with
  | none => rfl
  | some e =>
    dsimp only
    split <;> rfl

theorem SWRCache.setValidating_inflight (s : SWRCacheState T) (key : String)
    (b : Bool) : (SWRCache.setValidating s key b).inflight = s.inflight := by
  unfold SWRCache.setValidating
  cases h : jsGet s.cache key <;> rfl

theorem SWRCache.setValidating_lastFetchTime (s : SWRCacheState T)
    (key : String) (b : Bool) :
    (SWRCache.setValidating s key b).lastFetchTime = s.lastFetchTime := by
  unfold SWRCache.setValidating
  cases h : jsGet s.cache key <;> rfl

theorem countStarts_map_joined (l : List (Int × Nat)) (rid : Nat) :
    countStarts (T := T) (l.map (fun _ => .joined rid)) = 0 := by
  induction l with
  | nil => rfl
  | cons p rest ih => simpa [countStarts] using ih

/-- If a request is already in flight for a key, the synchronous body
of SWRCache.fetch never starts another one (it joins or serves the
fresh cache): at most one upstream fetch per key is in flight at any
instant. -/
theorem SWRCache.fetchStep_no_start_of_inflight (o : SWROptions)
    (s : SWRCacheState T) (key : String) (now : Int) (rid r rid2 : Nat)
    (h : jsGet s.inflight key = some r) :
    (SWRCache.fetchStep o now rid s key).1 ≠ .started rid2 := by
  simp only [SWRCache.fetchStep]
  by_cases hc : now - (jsGet s.lastFetchTime key).getD 0 < o.dedupingInterval
  · rw [if_pos hc, h]
    simp
  · rw [if_neg hc]
    cases hd : (SWRCache.get o now s key).1.data with
    | some v =>
      cases hs : (SWRCache.get o now s key).1.isStale with
      | false => simp [hd, hs]
      | true =>
        simp only [hd, hs]
        rw [SWRCache.get_inflight, h]
        simp
    | none =>
      cases hs : (SWRCache.get o now s key).1.isStale with
      | false =>
        simp only [hd, hs]
        rw [SWRCache.get_inflight, h]
        simp
      | true =>
        simp only [hd, hs]
        rw [SWRCache.get_inflight, h]
        simp

theorem SWRCache.fetchStep_starts (o : SWROptions) (s : SWRCacheState T)
    (key : String) (t0 : Int) (rid : Nat)
    (hin : jsGet s.inflight key = none)
    (hnf : (SWRCache.get o t0 s key).1.data = none ∨
      (SWRCache.get o t0 s key).1.isStale = true) :
    (SWRCache.fetchStep o t0 rid s key).1 = .started rid ∧
    jsGet (SWRCache.fetchStep o t0 rid s key).2.inflight key = some rid ∧
    jsGet (SWRCache.fetchStep o t0 rid s key).2.lastFetchTime key =
      some t0 := by
  simp only [SWRCache.fetchStep, hin, ite_self]
  cases hd : (SWRCache.get o t0 s key).1.data with
  | none =>
    simp only [hd]
    rw [SWRCache.get_inflight, hin]
    refine ⟨rfl, ?_, ?_⟩
    · simp [SWRCache.setValidating_inflight, SWRCache.get_inflight,
        jsGet_set_self]
    · simp [SWRCache.setValidating_lastFetchTime,
        SWRCache.get_lastFetchTime, jsGet_set_self]
  | some v =>
    have hs : (SWRCache.get o t0 s key).1.isStale = true := by
      rcases hnf with h1 | h1
      · rw [hd] at h1
        exact absurd h1 (by simp)
      · exact h1
    simp only [hd, hs]
    rw [SWRCache.get_inflight, hin]
    refine ⟨rfl, ?_, ?_⟩
    · simp [SWRCache.setValidating_inflight, SWRCache.get_inflight,
        jsGet_set_self]
    · simp [SWRCache.setValidating_lastFetchTime,
        SWRCache.get_lastFetchTime, jsGet_set_self]

theorem SWRCache.fetchStep_joins (o : SWROptions) (s2 : SWRCacheState T)
    (key : String) (t0 t : Int) (rid rid2 : Nat)
    (hin2 : jsGet s2.inflight key = some rid)
    (hlf : jsGet s2.lastFetchTime key = some t0)
    (ht : t - t0 < o.dedupingInterval) :
    SWRCache.fetchStep o t rid2 s2 key = (.joined rid, s2) := by
  simp only [SWRCache.fetchStep, hlf, Option.getD_some]
  rw [if_pos ht, hin2]

theorem SWRCache.fetchRun_joins (o : SWROptions) (key : String) (t0 : Int)
    (rid : Nat) (ts : List (Int × Nat)) :
    ∀ (s2 : SWRCacheState T), jsGet s2.inflight key = some rid →
    jsGet s2.lastFetchTime key = some t0 →
    (∀ p ∈ ts, p.1 - t0 < o.dedupingInterval) →
    SWRCache.fetchRun o key ts s2 =
      (ts.map (fun _ => .joined rid), s2) := by
  induction ts with
  | nil => intro s2 _ _ _; rfl
  | cons c rest ih =>
    intro s2 hin2 hlf hded
    have hstep := SWRCache.fetchStep_joins o s2 key t0 c.1 rid c.2 hin2 hlf
      (hded c (by simp))
    simp only [SWRCache.fetchRun, hstep]
    rw [ih s2 hin2 hlf (fun p hp => hded p (by simp [hp]))]
    simp

/-- C1: with no request in flight for `key` and no fresh cached value,
a batch of N concurrent SWRCache.fetch calls inside one dedupe window
starts exactly one upstream request (the first call invokes the
producer; every other call joins the same request id, hence settles
with the same outcome of that shared promise), and independently, a
fetch executed while a request is in flight never starts a second one. -/
theorem c1_swr_fetch_dedup (T : Type) (o : SWROptions) :
    (∀ (s : SWRCacheState T) (key : String) (now : Int) (rid r rid2 : Nat),
      jsGet s.inflight key = some r →
      (SWRCache.fetchStep o now rid s key).1 ≠ .started rid2) ∧
    (∀ (s : SWRCacheState T) (key : String) (t0 : Int)
        (ts : List (Int × Nat)) (rid : Nat),
      jsGet s.inflight key = none →
      ((SWRCache.get o t0 s key).1.data = none ∨
        (SWRCache.get o t0 s key).1.isStale = true) →
      (∀ p ∈ ts, p.1 - t0 < o.dedupingInterval) →
      (SWRCache.fetchRun o key ((t0, rid) :: ts) s).1 =
        .started rid :: ts.map (fun _ => FetchOutcome.joined rid) ∧
      countStarts (SWRCache.fetchRun o key ((t0, rid) :: ts) s).1 = 1) := by
  constructor
  · intro s key now rid r rid2 h
    exact SWRCache.fetchStep_no_start_of_inflight o s key now rid r rid2 h
  · intro s key t0 ts rid hin hnf hded
    obtain ⟨h1, h2, h3⟩ := SWRCache.fetchStep_starts o s key t0 rid hin hnf
    have hrun := SWRCache.fetchRun_joins o key t0 rid ts
      (SWRCache.fetchStep o t0 rid s key).2 h2 h3 hded
    have hout : (SWRCache.fetchRun o key ((t0, rid) :: ts) s).1 =
        .started rid :: ts.map (fun _ => FetchOutcome.joined rid) := by
      simp only [SWRCache.fetchRun, hrun, h1]
    refine ⟨hout, ?_⟩
    rw [hout]
    rw [show countStarts (.started rid ::
        ts.map (fun _ => FetchOutcome.joined rid)) =
      countStarts (T := T) (ts.map (fun _ => FetchOutcome.joined rid)) + 1
      from rfl]
    rw [countStarts_map_joined]

/-- C1 witness: three calls at times 0, 1, 2 (rid 7 first) on an empty
cache: one started request, two joins of it. -/
theorem c1_swr_fetch_dedup_witness :
    jsGet (SWRCacheState.empty (T := Nat)).inflight "k" = none ∧
    ((SWRCache.get DEFAULT_OPTIONS 0 (SWRCacheState.empty (T := Nat))
        "k").1.data = none ∨
      (SWRCache.get DEFAULT_OPTIONS 0 (SWRCacheState.empty (T := Nat))
        "k").1.isStale = true) ∧
    (SWRCache.fetchRun DEFAULT_OPTIONS "k" [(0, 7), (1, 8), (2, 9)]
        (SWRCacheState.empty (T := Nat))).1 =
      [.started 7, .joined 7, .joined 7] ∧
    countStarts (SWRCache.fetchRun DEFAULT_OPTIONS "k"
        [(0, 7), (1, 8), (2, 9)] (SWRCacheState.empty (T := Nat))).1 = 1 := by
  have happ := (c1_swr_fetch_dedup Nat DEFAULT_OPTIONS).2
    SWRCacheState.empty "k" 0 [(1, 8), (2, 9)] 7 (by rfl) (by left; rfl)
    (by decide)
  exact ⟨rfl, Or.inl rfl, happ.1, happ.2⟩

/-! ### C4: remaining counter arithmetic -/

theorem cleanupInMemoryRateLimit_kv (now : Int) (s : WorkerRLState) :
    (cleanupInMemoryRateLimit now s).kv = s.kv := by
  unfold cleanupInMemoryRateLimit
  split <;> rfl

theorem cleanupInMemoryRateLimit_mem_le (now : Int) (s : WorkerRLState) :
    (cleanupInMemoryRateLimit now s).mem.length ≤ s.mem.length := by
  unfold cleanupInMemoryRateLimit
  split
  · exact le_refl _
  · exact List.length_filter_le _ _

/-- C4 counterexample: fallback path, limit = 100; the second allowed
call of caller "1.2.3.4" in window 0 stores counter 2 but returns
remaining = 99, whereas the claim requires
remaining = limit - count_after = 98. -/
theorem c4_counterexample :
    (checkRateLimit ⟨100, 60, false⟩ "1.2.3.4" 1 true
        (checkRateLimit ⟨100, 60, false⟩ "1.2.3.4" 0 true
          WorkerRLState.empty).2).1.allowed = true ∧
    jsGet (checkRateLimit ⟨100, 60, false⟩ "1.2.3.4" 1 true
        (checkRateLimit ⟨100, 60, false⟩ "1.2.3.4" 0 true
          WorkerRLState.empty).2).2.mem "rate:1.2.3.4:0" =
      some ⟨2, 60⟩ ∧
    (checkRateLimit ⟨100, 60, false⟩ "1.2.3.4" 1 true
        (checkRateLimit ⟨100, 60, false⟩ "1.2.3.4" 0 true
          WorkerRLState.empty).2).1.remaining = 99 ∧
    ¬ ((99 : Int) = 100 - 2) := by
  refine ⟨rfl, rfl, rfl, by decide⟩

/-- Characterization of checkRateLimit on the reachable-KV path. -/
theorem checkRateLimit_kv_spec (cfg : WorkerRLConfig) (ip : String)
    (now : Int) (s : WorkerRLState) (hkv : cfg.hasKV = true) :
    checkRateLimit cfg ip now true s =
      (if ((jsGet (cleanupInMemoryRateLimit now s).kv
            (rateKey ip (windowStartOf cfg now))).map
            (fun e => e.count)).getD 0 ≥ cfg.limit then
        (⟨false, 0, windowStartOf cfg now + cfg.windowSeconds,
            some (windowStartOf cfg now + cfg.windowSeconds - now)⟩,
          cleanupInMemoryRateLimit now s)
      else
        (⟨true, (cfg.limit : Int) -
            ((jsGet (cleanupInMemoryRateLimit now s).kv
              (rateKey ip (windowStartOf cfg now))).map
              (fun e => e.count)).getD 0 - 1,
            windowStartOf cfg now + cfg.windowSeconds, none⟩,
          ⟨jsSet (cleanupInMemoryRateLimit now s).kv
              (rateKey ip (windowStartOf cfg now))
              ⟨((jsGet (cleanupInMemoryRateLimit now s).kv
                  (rateKey ip (windowStartOf cfg now))).map
                  (fun e => e.count)).getD 0 + 1,
                windowStartOf cfg now + cfg.windowSeconds⟩,
            (cleanupInMemoryRateLimit now s).mem,
            (cleanupInMemoryRateLimit now s).lastCleanup⟩)) := by
  simp only [checkRateLimit, hkv, Bool.true_and]
  rfl

/-- Characterization of checkRateLimit on the in-memory fallback path
(no KV configured, or the KV read failed). -/
theorem checkRateLimit_mem_spec (cfg : WorkerRLConfig) (ip : String)
    (now : Int) (kvOk : Bool) (s : WorkerRLState)
    (hkv : (cfg.hasKV && kvOk) = false) :
    checkRateLimit cfg ip now kvOk s =
      (let s1 := cleanupInMemoryRateLimit now s
       let key := rateKey ip (windowStartOf cfg now)
       let resetAt := windowStartOf cfg now + cfg.windowSeconds
       let existing := jsGet s1.mem key
       let current := (existing.map (fun e => e.count)).getD 0
       let existingReset := (existing.map (fun e => e.resetAt)).getD resetAt
       let s2 := if existing.isSome && decide (existingReset ≠ resetAt) then
           { s1 with mem := jsDelete s1.mem key } else s1
       if current ≥ cfg.limit then
         (⟨false, 0, resetAt, some (resetAt - now)⟩, s2)
       else
         (⟨true, (cfg.limit : Int) - 1, resetAt, none⟩,
          { s2 with mem := jsSet (ensureInMemoryLimitCapacity now s2.mem) key ⟨current + 1, resetAt⟩ })) := by
  simp only [checkRateLimit, hkv]
  rfl

/-- C4 (amended): on the durable-store (KV) path an allowed call
returns `remaining = limit - count_after` where count_after is the
stored counter after the increment, so a run of calls descends from
limit-1; on the in-memory fallback path every allowed call returns the
constant `remaining = limit - 1` regardless of the stored counter. -/
theorem c4_rate_limit_remaining (cfg : WorkerRLConfig) :
    (∀ (s : WorkerRLState) (ip : String) (now : Int),
      cfg.hasKV = true →
      ∀ (current : Nat),
      ((jsGet (cleanupInMemoryRateLimit now s).kv
          (rateKey ip (windowStartOf cfg now))).map
          (fun e => e.count)).getD 0 = current →
      current < cfg.limit →
      (checkRateLimit cfg ip now true s).1.allowed = true ∧
      (checkRateLimit cfg ip now true s).1.remaining =
        (cfg.limit : Int) - ((current : Int) + 1) ∧
      ((jsGet (checkRateLimit cfg ip now true s).2.kv
          (rateKey ip (windowStartOf cfg now))).map
          (fun e => e.count)).getD 0 = current + 1) ∧
    (∀ (s : WorkerRLState) (ip : String) (now : Int) (kvOk : Bool),
      (cfg.hasKV && kvOk) = false →
      (checkRateLimit cfg ip now kvOk s).1.allowed = true →
      (checkRateLimit cfg ip now kvOk s).1.remaining =
        (cfg.limit : Int) - 1) := by
  constructor
  · intro s ip now hkv current hcur hlt
    rw [checkRateLimit_kv_spec cfg ip now s hkv]
    rw [hcur, if_neg (by omega)]
    refine ⟨rfl, ?_, ?_⟩
    · show (cfg.limit : Int) - (current : Int) - 1 =
        (cfg.limit : Int) - ((current : Int) + 1)
      ring
    · show ((jsGet (jsSet (cleanupInMemoryRateLimit now s).kv
          (rateKey ip (windowStartOf cfg now))
          ⟨current + 1, windowStartOf cfg now + cfg.windowSeconds⟩)
          (rateKey ip (windowStartOf cfg now))).map
          (fun e => e.count)).getD 0 = current + 1
      rw [jsGet_set_self]
      rfl
  · intro s ip now kvOk hkv hallowed
    rw [checkRateLimit_mem_spec cfg ip now kvOk s hkv] at hallowed ⊢
    simp only at hallowed ⊢
    by_cases hc : ((jsGet (cleanupInMemoryRateLimit now s).mem
        (rateKey ip (windowStartOf cfg now))).map
        (fun e => e.count)).getD 0 ≥ cfg.limit
    · rw [if_pos hc] at hallowed
      exact absurd hallowed (by simp)
    · rw [if_neg hc]

/-- C4 witness: KV path first call from empty state has counter 0 and
returns remaining = limit - 1; a fallback call is allowed and returns
remaining = limit - 1. -/
theorem c4_rate_limit_remaining_witness :
    (WorkerRLConfig.mk 100 60 true).hasKV = true ∧
    (0 : Nat) < 100 ∧
    (checkRateLimit ⟨100, 60, true⟩ "1.2.3.4" 0 true
        WorkerRLState.empty).1.remaining = (100 : Int) - (0 + 1) ∧
    ((WorkerRLConfig.mk 100 60 false).hasKV && true) = false ∧
    (checkRateLimit ⟨100, 60, false⟩ "1.2.3.4" 1 true
        (checkRateLimit ⟨100, 60, false⟩ "1.2.3.4" 0 true
          WorkerRLState.empty).2).1.remaining = (100 : Int) - 1 := by
  have h1 := ((c4_rate_limit_remaining ⟨100, 60, true⟩).1
    WorkerRLState.empty "1.2.3.4" 0 rfl 0 rfl (by decide)).2.1
  have h2 := (c4_rate_limit_remaining ⟨100, 60, false⟩).2
    (checkRateLimit ⟨100, 60, false⟩ "1.2.3.4" 0 true
      WorkerRLState.empty).2 "1.2.3.4" 1 true rfl rfl
  exact ⟨rfl, by decide, by simpa using h1, rfl, h2⟩

/-! ### C9: in-memory fallback boundedness -/

theorem evictLoop_length_lt (M : Nat) (hM : 1 ≤ M)
    (l : List (String × RateLimitEntry)) : (evictLoop M l).length < M := by
  induction l with
  | nil => simpa [evictLoop] using hM
  | cons x rest ih =>
    by_cases h : (x :: rest).length < M
    · rw [evictLoop, if_pos h]
      exact h
    · rw [evictLoop, if_neg h]
      exact ih

theorem ensureInMemoryLimitCapacity_length_lt (now : Int)
    (mem : List (String × RateLimitEntry)) :
    (ensureInMemoryLimitCapacity now mem).length <
      MAX_IN_MEMORY_RATE_LIMIT_ENTRIES := by
  unfold ensureInMemoryLimitCapacity
  split
  · assumption
  · exact evictLoop_length_lt _ (by decide) _

theorem jsSet_ensure_length_le (now : Int)
    (mem : List (String × RateLimitEntry)) (k : String)
    (e : RateLimitEntry) :
    (jsSet (ensureInMemoryLimitCapacity now mem) k e).length ≤
      MAX_IN_MEMORY_RATE_LIMIT_ENTRIES := by
  rw [jsSet_length]
  split
  · exact Nat.le_of_lt (ensureInMemoryLimitCapacity_length_lt _ _)
  · exact Nat.succ_le_of_lt (ensureInMemoryLimitCapacity_length_lt _ _)

theorem checkRateLimit_mem_bound (cfg : WorkerRLConfig) (ip : String)
    (now : Int) (kvOk : Bool) (s : WorkerRLState)
    (h : s.mem.length ≤ MAX_IN_MEMORY_RATE_LIMIT_ENTRIES) :
    (checkRateLimit cfg ip now kvOk s).2.mem.length ≤
      MAX_IN_MEMORY_RATE_LIMIT_ENTRIES := by
  have hc := cleanupInMemoryRateLimit_mem_le now s
  by_cases hb : (cfg.hasKV && kvOk) = true
  · obtain ⟨h1, h2⟩ := Bool.and_eq_true_iff.mp hb
    subst h2
    rw [checkRateLimit_kv_spec cfg ip now s h1]
    split
    · dsimp only
      omega
    · dsimp only
      omega
  · rw [checkRateLimit_mem_spec cfg ip now kvOk s
      (Bool.not_eq_true _ ▸ Bool.of_not_eq_true hb)]
    simp only
    have hdel := jsDelete_length_le (cleanupInMemoryRateLimit now s).mem
      (rateKey ip (windowStartOf cfg now))
    split
    · dsimp only
      split
      · dsimp only
        omega
      · omega
    · dsimp only
      exact jsSet_ensure_length_le _ _ _ _

/-- C9: the in-memory fallback counter map never exceeds its ceiling
MAX_IN_MEMORY_RATE_LIMIT_ENTRIES: every call sequence from the empty
state stays within the bound, and a single call preserves the bound
from any state within it (at the ceiling, expired entries are purged
first and then arbitrary entries evicted until under the ceiling,
before the new entry is inserted). -/
theorem c9_fallback_store_bounded (cfg : WorkerRLConfig) :
    (∀ (calls : List RLCall),
      (runRL cfg WorkerRLState.empty calls).2.mem.length ≤
        MAX_IN_MEMORY_RATE_LIMIT_ENTRIES) ∧
    (∀ (s : WorkerRLState) (c : RLCall),
      s.mem.length ≤ MAX_IN_MEMORY_RATE_LIMIT_ENTRIES →
      (checkRateLimit cfg c.ip c.now c.kvOk s).2.mem.length ≤
        MAX_IN_MEMORY_RATE_LIMIT_ENTRIES) := by
  have hstep : ∀ (s : WorkerRLState) (c : RLCall),
      s.mem.length ≤ MAX_IN_MEMORY_RATE_LIMIT_ENTRIES →
      (checkRateLimit cfg c.ip c.now c.kvOk s).2.mem.length ≤
        MAX_IN_MEMORY_RATE_LIMIT_ENTRIES :=
    fun s c h => checkRateLimit_mem_bound cfg c.ip c.now c.kvOk s h
  constructor
  · have hgen : ∀ (calls : List RLCall) (s : WorkerRLState),
        s.mem.length ≤ MAX_IN_MEMORY_RATE_LIMIT_ENTRIES →
        (runRL cfg s calls).2.mem.length ≤
          MAX_IN_MEMORY_RATE_LIMIT_ENTRIES := by
      intro calls
      induction calls with
      | nil => intro s h; exact h
      | cons c rest ih =>
        intro s h
        exact ih _ (hstep s c h)
    intro calls
    exact hgen calls WorkerRLState.empty (by decide)
  · intro s c h
    exact hstep s c h

/-- C9 witness for the single-call conjunct: one fallback call from
the empty state. -/
theorem c9_fallback_store_bounded_witness :
    (WorkerRLState.empty.mem.length ≤ MAX_IN_MEMORY_RATE_LIMIT_ENTRIES) ∧
    (checkRateLimit ⟨100, 60, false⟩ "1.2.3.4" 0 true
        WorkerRLState.empty).2.mem.length ≤
      MAX_IN_MEMORY_RATE_LIMIT_ENTRIES :=
  ⟨by decide,
    (c9_fallback_store_bounded ⟨100, 60, false⟩).2 WorkerRLState.empty
      ⟨"1.2.3.4", 0, true⟩ (by decide)⟩

/-! ### C5: per-window allowance bound and window reset -/

/-- C5 counterexample: limit 1, KV configured.  Caller "a" is allowed
at t = 0 via the KV counter; at t = 1 (same window, key rate:a:0) the
KV read fails, the call falls back to the fresh in-memory counter and
is allowed again: two allowed calls for one caller in one window with
limit = 1. -/
theorem c5_counterexample :
    (WorkerRLConfig.mk 1 60 true).limit = 1 ∧
    countAllowedKey ⟨1, 60, true⟩ "rate:a:0"
      (runRL ⟨1, 60, true⟩ WorkerRLState.empty
        [⟨"a", 0, true⟩, ⟨"a", 1, false⟩]).1 = 2 ∧
    ¬ (2 ≤ (WorkerRLConfig.mk 1 60 true).limit) := by
  refine ⟨rfl, by decide, by decide⟩

theorem jsGet_filter_keep (m : List (String × A)) (P : String × A → Bool)
    (k : String) (e : A) (hm : jsGet m k = some e)
    (hp : P (k, e) = true) :
    jsGet (m.filter P) k = some e := by
  induction m with
  | nil => simp [jsGet] at hm
  | cons q rest ih =>
    rw [jsGet_cons] at hm
    by_cases hq : q.1 = k
    · rw [if_pos hq] at hm
      have hqe : q = (k, e) := by
        obtain ⟨q1, q2⟩ := q
        simp only at hq
        simp only [Option.some_inj] at hm
        simp [hq, hm]
      subst hqe
      rw [List.filter_cons, if_pos hp, jsGet_cons, if_pos rfl]
    · rw [if_neg hq] at hm
      rw [List.filter_cons]
      split
      · rw [jsGet_cons, if_neg hq]
        exact ih hm
      · exact ih hm

theorem jsGet_filter_none (m : List (String × A)) (P : String × A → Bool)
    (k : String) (hm : jsGet m k = none) :
    jsGet (m.filter P) k = none := by
  induction m with
  | nil => simp [jsGet]
  | cons q rest ih =>
    rw [jsGet_cons] at hm
    by_cases hq : q.1 = k
    · rw [if_pos hq] at hm
      exact absurd hm (by simp)
    · rw [if_neg hq] at hm
      rw [List.filter_cons]
      split
      · rw [jsGet_cons, if_neg hq]
        exact ih hm
      · exact ih hm

theorem jsGet_evictLoop_none (M : Nat)
    (m : List (String × RateLimitEntry)) (k : String)
    (hm : jsGet m k = none) : jsGet (evictLoop M m) k = none := by
  induction m with
  | nil => simpa [evictLoop] using hm
  | cons q rest ih =>
    rw [evictLoop]
    split
    · exact hm
    · rw [jsGet_cons] at hm
      by_cases hq : q.1 = k
      · rw [if_pos hq] at hm
        exact absurd hm (by simp)
      · rw [if_neg hq] at hm
        exact ih hm

theorem jsGet_ensure_none (now : Int)
    (m : List (String × RateLimitEntry)) (k : String)
    (hm : jsGet m k = none) :
    jsGet (ensureInMemoryLimitCapacity now m) k = none := by
  unfold ensureInMemoryLimitCapacity
  split
  · exact hm
  · exact jsGet_evictLoop_none _ _ _ (jsGet_filter_none _ _ _ hm)


theorem ensure_id_of_lt (now : Int) (m : List (String × RateLimitEntry))
    (h : m.length < MAX_IN_MEMORY_RATE_LIMIT_ENTRIES) :
    ensureInMemoryLimitCapacity now m = m := by
  unfold ensureInMemoryLimitCapacity
  rw [if_pos h]

theorem cleanup_mem_keep (now : Int) (s : WorkerRLState) (k : String)
    (e : RateLimitEntry) (hm : jsGet s.mem k = some e)
    (hp : ¬ e.resetAt ≤ now) :
    jsGet (cleanupInMemoryRateLimit now s).mem k = some e := by
  unfold cleanupInMemoryRateLimit
  split
  · exact hm
  · exact jsGet_filter_keep _ _ _ _ hm (by simpa using hp)


theorem cleanup_mem_none (now : Int) (s : WorkerRLState) (k : String)
    (hm : jsGet s.mem k = none) :
    jsGet (cleanupInMemoryRateLimit now s).mem k = none := by
  unfold cleanupInMemoryRateLimit
  split
  · exact hm
  · exact jsGet_filter_none _ _ _ hm

theorem windowStartOf_le (cfg : WorkerRLConfig) (now : Int)
    (hw : 0 < cfg.windowSeconds) :
    windowStartOf cfg now ≤ now ∧
      now < windowStartOf cfg now + cfg.windowSeconds := by
  have h1 := Int.emod_nonneg now (by omega : cfg.windowSeconds ≠ 0)
  have h2 := Int.emod_lt_of_pos now hw
  unfold windowStartOf
  omega

theorem countAllowedKey_cons (cfg : WorkerRLConfig) (k : String)
    (c : RLCall) (r : RLResult) (rest : List (RLCall × RLResult)) :
    countAllowedKey cfg k ((c, r) :: rest) =
      (if RLCall.key cfg c = k ∧ r.allowed = true then 1 else 0) +
        countAllowedKey cfg k rest := by
  unfold countAllowedKey
  rw [List.filter_cons]
  by_cases h : RLCall.key cfg c = k ∧ r.allowed = true
  · rw [if_pos h, if_pos (by simp [h.1, h.2])]
    simp [Nat.add_comm]
  · rw [if_neg h, if_neg ?_]
    · simp
    · simp only [Bool.and_eq_true, beq_iff_eq, decide_eq_true_eq]
      intro hc
      exact h ⟨hc.1, hc.2⟩

theorem countAllowedKey_zero_of_no_k (cfg : WorkerRLConfig) (k : String)
    (trace : List RLCall) :
    ∀ (s : WorkerRLState), (∀ c ∈ trace, RLCall.key cfg c ≠ k) →
    countAllowedKey cfg k (runRL cfg s trace).1 = 0 := by
  induction trace with
  | nil => intro s _; rfl
  | cons c rest ih =>
    intro s hk
    simp only [runRL]
    rw [countAllowedKey_cons, if_neg (by
      intro hc
      exact hk c (by simp) hc.1)]
    simpa using ih _ (fun c2 h2 => hk c2 (by simp [h2]))

theorem RLCall.key_def (cfg : WorkerRLConfig) (c : RLCall) :
    RLCall.key cfg c = rateKey c.ip (windowStartOf cfg c.now) := rfl

theorem kv_count_bound (cfg : WorkerRLConfig) (k : String)
    (hkv : cfg.hasKV = true) (trace : List RLCall) :
    ∀ (s : WorkerRLState), (∀ c ∈ trace, c.kvOk = true) →
    countAllowedKey cfg k (runRL cfg s trace).1 ≤
      cfg.limit -
        min (((jsGet s.kv k).map (fun e => e.count)).getD 0) cfg.limit := by
  induction trace with
  | nil =>
    intro s _
    simp [runRL, countAllowedKey]
  | cons c rest ih =>
    intro s hok
    have hco : c.kvOk = true := hok c (by simp)
    have hok2 : ∀ c2 ∈ rest, c2.kvOk = true :=
      fun c2 h2 => hok c2 (List.mem_cons_of_mem _ h2)
    simp only [runRL]
    rw [hco, countAllowedKey_cons,
      checkRateLimit_kv_spec cfg c.ip c.now s hkv]
    by_cases hge : ((jsGet (cleanupInMemoryRateLimit c.now s).kv
        (rateKey c.ip (windowStartOf cfg c.now))).map
        (fun e => e.count)).getD 0 ≥ cfg.limit
    · rw [if_pos hge]
      dsimp only
      rw [if_neg (by simp)]
      have ihh := ih (cleanupInMemoryRateLimit c.now s) hok2
      rw [cleanupInMemoryRateLimit_kv] at ihh
      omega
    · rw [if_neg hge]
      dsimp only
      have ihh := ih ⟨jsSet (cleanupInMemoryRateLimit c.now s).kv
          (rateKey c.ip (windowStartOf cfg c.now))
          ⟨((jsGet (cleanupInMemoryRateLimit c.now s).kv
              (rateKey c.ip (windowStartOf cfg c.now))).map
              (fun e => e.count)).getD 0 + 1,
            windowStartOf cfg c.now + cfg.windowSeconds⟩,
          (cleanupInMemoryRateLimit c.now s).mem,
          (cleanupInMemoryRateLimit c.now s).lastCleanup⟩ hok2
      rw [cleanupInMemoryRateLimit_kv] at ihh hge ⊢
      by_cases hck : RLCall.key cfg c = k
      · rw [RLCall.key_def] at hck
        rw [if_pos ⟨by rw [RLCall.key_def]; exact hck, rfl⟩]
        rw [hck] at ihh hge ⊢
        rw [jsGet_set_self] at ihh
        simp only [Option.map_some, Option.map_some', Option.getD_some] at ihh
        omega
      · rw [RLCall.key_def] at hck
        rw [if_neg (by
          intro hc
          rw [RLCall.key_def] at hc
          exact hck hc.1)]
        rw [jsGet_set_ne _ _ _ _ (fun hh => hck hh.symm)] at ihh
        omega

theorem mem_count_bound (cfg : WorkerRLConfig) (k : String) (W : Int)
    (hw : 0 < cfg.windowSeconds) (trace : List RLCall) :
    ∀ (s : WorkerRLState),
    (∀ c ∈ trace, (cfg.hasKV && c.kvOk) = false) →
    (∀ c ∈ trace, RLCall.key cfg c = k → windowStartOf cfg c.now = W) →
    trace.Pairwise (fun a b => a.now ≤ b.now) →
    (∀ n : Nat, (runRL cfg s (trace.take n)).2.mem.length <
      MAX_IN_MEMORY_RATE_LIMIT_ENTRIES) →
    (jsGet s.mem k = none ∨ ∃ e, jsGet s.mem k = some e ∧
      e.resetAt = W + cfg.windowSeconds) →
    countAllowedKey cfg k (runRL cfg s trace).1 ≤
      cfg.limit -
        min (((jsGet s.mem k).map (fun e => e.count)).getD 0) cfg.limit := by
  induction trace with
  | nil =>
    intro s _ _ _ _ _
    simp [runRL, countAllowedKey]
  | cons c rest ih =>
    intro s hkvf hk hpw hcap hinv
    have hkvc : (cfg.hasKV && c.kvOk) = false := hkvf c (by simp)
    have hlen0 : s.mem.length < MAX_IN_MEMORY_RATE_LIMIT_ENTRIES := by
      have h0 := hcap 0
      simpa [runRL] using h0
    have hcap2 : ∀ n : Nat,
        (runRL cfg (checkRateLimit cfg c.ip c.now c.kvOk s).2
          (rest.take n)).2.mem.length <
          MAX_IN_MEMORY_RATE_LIMIT_ENTRIES := by
      intro n
      have hn := hcap (n + 1)
      simpa [runRL, List.take_succ_cons] using hn
    have hkvf2 : ∀ c2 ∈ rest, (cfg.hasKV && c2.kvOk) = false :=
      fun c2 h2 => hkvf c2 (List.mem_cons_of_mem _ h2)
    have hk2 : ∀ c2 ∈ rest, RLCall.key cfg c2 = k →
        windowStartOf cfg c2.now = W :=
      fun c2 h2 => hk c2 (List.mem_cons_of_mem _ h2)
    have hpw2 : rest.Pairwise (fun a b => a.now ≤ b.now) :=
      (List.pairwise_cons.mp hpw).2
    have hmono : ∀ c2 ∈ rest, c.now ≤ c2.now :=
      (List.pairwise_cons.mp hpw).1
    have hl1 : (cleanupInMemoryRateLimit c.now s).mem.length <
        MAX_IN_MEMORY_RATE_LIMIT_ENTRIES :=
      lt_of_le_of_lt (cleanupInMemoryRateLimit_mem_le _ _) hlen0
    simp only [runRL]
    rw [countAllowedKey_cons]
    by_cases hck : RLCall.key cfg c = k
    · -- this call targets the counter key k, so it lies in window W
      have hwin : windowStartOf cfg c.now = W := hk c (by simp) hck
      have hckr : rateKey c.ip (windowStartOf cfg c.now) = k := hck
      have hb := windowStartOf_le cfg c.now hw
      rcases hinv with hnone | ⟨e, hsome, hreset⟩
      · -- no resident counter for k yet: current = 0
        have h1 : jsGet (cleanupInMemoryRateLimit c.now s).mem k = none :=
          cleanup_mem_none _ _ _ hnone
        by_cases hlim : (0 : Nat) ≥ cfg.limit
        · have hstep : checkRateLimit cfg c.ip c.now c.kvOk s =
              (⟨false, 0, windowStartOf cfg c.now + cfg.windowSeconds,
                  some (windowStartOf cfg c.now + cfg.windowSeconds - c.now)⟩,
                cleanupInMemoryRateLimit c.now s) := by
            rw [checkRateLimit_mem_spec cfg c.ip c.now c.kvOk s hkvc]
            simp only [hckr, h1, Option.map_none', Option.getD_none,
              Option.isSome_none, Bool.false_and, Bool.false_eq_true,
              if_false, if_pos hlim]
          rw [hstep]
          dsimp only
          rw [if_neg (by simp)]
          have ihh := ih (cleanupInMemoryRateLimit c.now s) hkvf2 hk2 hpw2
            (by intro n; have hn := hcap2 n; rw [hstep] at hn; exact hn)
            (Or.inl h1)
          rw [h1] at ihh
          rw [hnone]
          simpa using ihh
        · have hstep : checkRateLimit cfg c.ip c.now c.kvOk s =
              (⟨true, (cfg.limit : Int) - 1,
                  windowStartOf cfg c.now + cfg.windowSeconds, none⟩,
                ⟨(cleanupInMemoryRateLimit c.now s).kv,
                  jsSet (cleanupInMemoryRateLimit c.now s).mem k
                    ⟨0 + 1, windowStartOf cfg c.now + cfg.windowSeconds⟩,
                  (cleanupInMemoryRateLimit c.now s).lastCleanup⟩) := by
            rw [checkRateLimit_mem_spec cfg c.ip c.now c.kvOk s hkvc]
            simp only [hckr, h1, Option.map_none', Option.getD_none,
              Option.isSome_none, Bool.false_and, Bool.false_eq_true,
              if_false, if_neg hlim]
            rw [ensure_id_of_lt _ _ hl1]
          rw [hstep]
          dsimp only
          rw [if_pos ⟨hck, rfl⟩]
          have hnew : jsGet (jsSet (cleanupInMemoryRateLimit c.now s).mem k
              ⟨0 + 1, windowStartOf cfg c.now + cfg.windowSeconds⟩) k =
              some ⟨0 + 1, windowStartOf cfg c.now + cfg.windowSeconds⟩ :=
            jsGet_set_self _ _ _
          have ihh := ih ⟨(cleanupInMemoryRateLimit c.now s).kv,
              jsSet (cleanupInMemoryRateLimit c.now s).mem k
                ⟨0 + 1, windowStartOf cfg c.now + cfg.windowSeconds⟩,
              (cleanupInMemoryRateLimit c.now s).lastCleanup⟩ hkvf2 hk2 hpw2
            (by intro n; have hn := hcap2 n; rw [hstep] at hn; exact hn)
            (Or.inr ⟨⟨0 + 1, windowStartOf cfg c.now + cfg.windowSeconds⟩,
              hnew, by rw [hwin]⟩)
          rw [hnew] at ihh
          simp only [Option.map_some', Option.getD_some] at ihh
          rw [hnone]
          simp only [Option.map_none', Option.getD_none]
          omega
      · -- resident counter ⟨e.count, W + windowSeconds⟩ for k
        have hkeep : ¬ e.resetAt ≤ c.now := by omega
        have h1 : jsGet (cleanupInMemoryRateLimit c.now s).mem k = some e :=
          cleanup_mem_keep _ _ _ _ hsome hkeep
        have hresf : (decide ¬ (e.resetAt =
            windowStartOf cfg c.now + cfg.windowSeconds)) = false := by
          simp [hreset, hwin]
        by_cases hlim : e.count ≥ cfg.limit
        · have hstep : checkRateLimit cfg c.ip c.now c.kvOk s =
              (⟨false, 0, windowStartOf cfg c.now + cfg.windowSeconds,
                  some (windowStartOf cfg c.now + cfg.windowSeconds - c.now)⟩,
                cleanupInMemoryRateLimit c.now s) := by
            rw [checkRateLimit_mem_spec cfg c.ip c.now c.kvOk s hkvc]
            simp only [hckr, h1, Option.map_some', Option.getD_some,
              Option.isSome_some, Bool.true_and, hresf, Bool.false_eq_true,
              if_false, if_pos hlim]
          rw [hstep]
          dsimp only
          rw [if_neg (by simp)]
          have ihh := ih (cleanupInMemoryRateLimit c.now s) hkvf2 hk2 hpw2
            (by intro n; have hn := hcap2 n; rw [hstep] at hn; exact hn)
            (Or.inr ⟨e, h1, hreset⟩)
          rw [h1] at ihh
          rw [hsome]
          simpa using ihh
        · have hstep : checkRateLimit cfg c.ip c.now c.kvOk s =
              (⟨true, (cfg.limit : Int) - 1,
                  windowStartOf cfg c.now + cfg.windowSeconds, none⟩,
                ⟨(cleanupInMemoryRateLimit c.now s).kv,
                  jsSet (cleanupInMemoryRateLimit c.now s).mem k
                    ⟨e.count + 1,
                      windowStartOf cfg c.now + cfg.windowSeconds⟩,
                  (cleanupInMemoryRateLimit c.now s).lastCleanup⟩) := by
            rw [checkRateLimit_mem_spec cfg c.ip c.now c.kvOk s hkvc]
            simp only [hckr, h1, Option.map_some', Option.getD_some,
              Option.isSome_some, Bool.true_and, hresf, Bool.false_eq_true,
              if_false, if_neg hlim]
            rw [ensure_id_of_lt _ _ hl1]
          rw [hstep]
          dsimp only
          rw [if_pos ⟨hck, rfl⟩]
          have hnew : jsGet (jsSet (cleanupInMemoryRateLimit c.now s).mem k
              ⟨e.count + 1, windowStartOf cfg c.now + cfg.windowSeconds⟩) k =
              some ⟨e.count + 1,
                windowStartOf cfg c.now + cfg.windowSeconds⟩ :=
            jsGet_set_self _ _ _
          have ihh := ih ⟨(cleanupInMemoryRateLimit c.now s).kv,
              jsSet (cleanupInMemoryRateLimit c.now s).mem k
                ⟨e.count + 1, windowStartOf cfg c.now + cfg.windowSeconds⟩,
              (cleanupInMemoryRateLimit c.now s).lastCleanup⟩ hkvf2 hk2 hpw2
            (by intro n; have hn := hcap2 n; rw [hstep] at hn; exact hn)
            (Or.inr ⟨⟨e.count + 1,
              windowStartOf cfg c.now + cfg.windowSeconds⟩,
              hnew, by rw [hwin]⟩)
          rw [hnew] at ihh
          simp only [Option.map_some', Option.getD_some] at ihh
          rw [hsome]
          simp only [Option.map_some', Option.getD_some]
          omega
    · -- this call targets another key
      rw [if_neg (fun hc => hck hc.1)]
      rw [RLCall.key_def] at hck
      by_cases hlate : W + cfg.windowSeconds ≤ c.now
      · have hnok : ∀ c2 ∈ rest, RLCall.key cfg c2 ≠ k := by
          intro c2 h2 hkey
          have hW2 : windowStartOf cfg c2.now = W := hk2 c2 h2 hkey
          have hm2 := hmono c2 h2
          have hb2 := windowStartOf_le cfg c2.now hw
          omega
        rw [countAllowedKey_zero_of_no_k cfg k rest _ hnok]
        omega
      · -- the counter for k survives this call untouched
        have hval : jsGet (cleanupInMemoryRateLimit c.now s).mem k =
            jsGet s.mem k := by
          rcases hinv with hnone | ⟨e, hsome, hreset⟩
          · rw [hnone]
            exact cleanup_mem_none _ _ _ hnone
          · rw [hsome]
            exact cleanup_mem_keep _ _ _ _ hsome (by omega)
        have hs2len : ∀ m2 : List (String × RateLimitEntry),
            m2.length ≤ (cleanupInMemoryRateLimit c.now s).mem.length →
            m2.length < MAX_IN_MEMORY_RATE_LIMIT_ENTRIES :=
          fun m2 hm2 => lt_of_le_of_lt hm2 hl1
        have hSk : jsGet (checkRateLimit cfg c.ip c.now c.kvOk s).2.mem k =
            jsGet s.mem k := by
          rw [checkRateLimit_mem_spec cfg c.ip c.now c.kvOk s hkvc]
          simp only
          split
          · dsimp only
            split
            · dsimp only
              rw [jsGet_delete_ne _ _ _ (fun hh => hck hh.symm)]
              exact hval
            · exact hval
          · dsimp only
            rw [jsGet_set_ne _ _ _ _ (fun hh => hck hh.symm)]
            split
            · dsimp only
              rw [ensure_id_of_lt _ _ (hs2len _ (jsDelete_length_le _ _))]
              rw [jsGet_delete_ne _ _ _ (fun hh => hck hh.symm)]
              exact hval
            · rw [ensure_id_of_lt _ _ (hs2len _ (le_refl _))]
              exact hval
        have ihh := ih (checkRateLimit cfg c.ip c.now c.kvOk s).2 hkvf2 hk2
          hpw2 hcap2
          (by
            rcases hinv with hnone | ⟨e, hsome, hreset⟩
            · exact Or.inl (by rw [hSk]; exact hnone)
            · exact Or.inr ⟨e, by rw [hSk]; exact hsome, hreset⟩)
        rw [hSk] at ihh
        omega

theorem checkRateLimit_fresh_key_allowed (cfg : WorkerRLConfig)
    (ip : String) (now : Int) (kvOk : Bool) (s : WorkerRLState)
    (hlim : 1 ≤ cfg.limit)
    (hkv : jsGet s.kv (rateKey ip (windowStartOf cfg now)) = none)
    (hmem : jsGet s.mem (rateKey ip (windowStartOf cfg now)) = none) :
    (checkRateLimit cfg ip now kvOk s).1.allowed = true := by
  by_cases hb : (cfg.hasKV && kvOk) = true
  · obtain ⟨h1, h2⟩ := Bool.and_eq_true_iff.mp hb
    rw [h2, checkRateLimit_kv_spec cfg ip now s h1]
    have hkv2 : jsGet (cleanupInMemoryRateLimit now s).kv
        (rateKey ip (windowStartOf cfg now)) = none := by
      rw [cleanupInMemoryRateLimit_kv]
      exact hkv
    simp only [hkv2, Option.map_none', Option.getD_none]
    rw [if_neg (by omega)]
  · rw [checkRateLimit_mem_spec cfg ip now kvOk s
      (Bool.not_eq_true _ ▸ Bool.of_not_eq_true hb)]
    simp only
    have h1 := cleanup_mem_none now s _ hmem
    simp only [h1, Option.map_none', Option.getD_none, Option.isSome_none,
      Bool.false_and, Bool.false_eq_true, if_false]
    rw [if_neg (by omega)]

theorem runRL_fresh_key (cfg : WorkerRLConfig) (k2 : String)
    (trace : List RLCall) :
    ∀ (s : WorkerRLState), jsGet s.kv k2 = none → jsGet s.mem k2 = none →
    (∀ c ∈ trace, RLCall.key cfg c ≠ k2) →
    jsGet (runRL cfg s trace).2.kv k2 = none ∧
      jsGet (runRL cfg s trace).2.mem k2 = none := by
  induction trace with
  | nil => intro s h1 h2 _; exact ⟨h1, h2⟩
  | cons c rest ih =>
    intro s hkvN hmemN hne
    have hnec : rateKey c.ip (windowStartOf cfg c.now) ≠ k2 := by
      have := hne c (by simp)
      rwa [RLCall.key_def] at this
    have hkvC : jsGet (cleanupInMemoryRateLimit c.now s).kv k2 = none := by
      rw [cleanupInMemoryRateLimit_kv]
      exact hkvN
    have hmemC : jsGet (cleanupInMemoryRateLimit c.now s).mem k2 = none :=
      cleanup_mem_none _ _ _ hmemN
    have hstep : jsGet (checkRateLimit cfg c.ip c.now c.kvOk s).2.kv k2 =
        none ∧
        jsGet (checkRateLimit cfg c.ip c.now c.kvOk s).2.mem k2 = none := by
      by_cases hb : (cfg.hasKV && c.kvOk) = true
      · obtain ⟨h1, h2⟩ := Bool.and_eq_true_iff.mp hb
        rw [h2, checkRateLimit_kv_spec cfg c.ip c.now s h1]
        constructor
        · split
          · exact hkvC
          · dsimp only
            rw [jsGet_set_ne _ _ _ _ (fun hh => hnec hh.symm)]
            exact hkvC
        · split
          · exact hmemC
          · exact hmemC
      · rw [checkRateLimit_mem_spec cfg c.ip c.now c.kvOk s
          (Bool.not_eq_true _ ▸ Bool.of_not_eq_true hb)]
        simp only
        constructor
        · split
          · dsimp only
            split
            · exact hkvC
            · exact hkvC
          · dsimp only
            split
            · exact hkvC
            · exact hkvC
        · split
          · dsimp only
            split
            · dsimp only
              exact jsGet_filter_none _ _ _ hmemC
            · exact hmemC
          · dsimp only
            rw [jsGet_set_ne _ _ _ _ (fun hh => hnec hh.symm)]
            apply jsGet_ensure_none
            split
            · dsimp only
              exact jsGet_filter_none _ _ _ hmemC
            · exact hmemC
    exact ih _ hstep.1 hstep.2 (fun c2 h2 => hne c2 (by simp [h2]))

/-- C5 (amended): (1) durable-store path: along any call sequence from
the initial state in which KV is configured and reachable, at most
`limit` calls for one counter key (one caller and window) are allowed;
(2) in-memory fallback path: the same bound holds for a window-W
counter key along any time-ordered sequence served by the fallback,
provided the resident map stays below its capacity ceiling (capacity
eviction or a mid-window durable-store outage can otherwise admit more
than `limit`); (3) reset: a call whose counter key was never touched
before — in particular the first call of the immediately following
window — is always allowed when limit ≥ 1. -/
theorem c5_rate_window_bound_and_reset (cfg : WorkerRLConfig) (k : String)
    (W : Int) :
    (cfg.hasKV = true → ∀ (trace : List RLCall),
      (∀ c ∈ trace, c.kvOk = true) →
      countAllowedKey cfg k (runRL cfg WorkerRLState.empty trace).1 ≤
        cfg.limit) ∧
    (0 < cfg.windowSeconds → ∀ (trace : List RLCall),
      (∀ c ∈ trace, (cfg.hasKV && c.kvOk) = false) →
      (∀ c ∈ trace, RLCall.key cfg c = k → windowStartOf cfg c.now = W) →
      trace.Pairwise (fun a b => a.now ≤ b.now) →
      (∀ n : Nat, (runRL cfg WorkerRLState.empty (trace.take n)).2.mem.length <
        MAX_IN_MEMORY_RATE_LIMIT_ENTRIES) →
      countAllowedKey cfg k (runRL cfg WorkerRLState.empty trace).1 ≤
        cfg.limit) ∧
    (1 ≤ cfg.limit → ∀ (trace : List RLCall) (ip : String) (now : Int)
        (kvOk : Bool),
      (∀ c ∈ trace, RLCall.key cfg c ≠ rateKey ip (windowStartOf cfg now)) →
      (checkRateLimit cfg ip now kvOk
        (runRL cfg WorkerRLState.empty trace).2).1.allowed = true) := by
  refine ⟨?_, ?_, ?_⟩
  · intro hkv trace hok
    have h := kv_count_bound cfg k hkv trace WorkerRLState.empty hok
    simpa [WorkerRLState.empty, jsGet_nil] using h
  · intro hw trace hkvf hk hpw hcap
    have h := mem_count_bound cfg k W hw trace WorkerRLState.empty hkvf hk
      hpw hcap (Or.inl (jsGet_nil _))
    simpa [WorkerRLState.empty, jsGet_nil] using h
  · intro hlim trace ip now kvOk hne
    have h := runRL_fresh_key cfg (rateKey ip (windowStartOf cfg now)) trace
      WorkerRLState.empty (jsGet_nil _) (jsGet_nil _) hne
    exact checkRateLimit_fresh_key_allowed cfg ip now kvOk _ hlim h.1 h.2

/-- C5 witness: single-call instances of the three conjuncts (KV path,
fallback path under capacity, next-window reset). -/
theorem c5_rate_window_bound_and_reset_witness :
    (countAllowedKey ⟨2, 60, true⟩ "rate:a:0"
        (runRL ⟨2, 60, true⟩ WorkerRLState.empty [⟨"a", 0, true⟩]).1 ≤ 2) ∧
    (countAllowedKey ⟨2, 60, false⟩ "rate:a:0"
        (runRL ⟨2, 60, false⟩ WorkerRLState.empty [⟨"a", 0, true⟩]).1 ≤ 2) ∧
    ((checkRateLimit ⟨2, 60, true⟩ "a" 60 true
        (runRL ⟨2, 60, true⟩ WorkerRLState.empty
          [⟨"a", 0, true⟩]).2).1.allowed = true) := by
  have hA := (c5_rate_window_bound_and_reset ⟨2, 60, true⟩ "rate:a:0" 0).1
    rfl [⟨"a", 0, true⟩] (by decide)
  have hB := (c5_rate_window_bound_and_reset ⟨2, 60, false⟩ "rate:a:0" 0).2.1
    (by decide) [⟨"a", 0, true⟩] (by decide) (by decide) (by decide)
    (by
      intro n
      cases n with
      | zero => decide
      | succ m =>
        rw [List.take_succ_cons, List.take_nil]
        decide)
  have hC := (c5_rate_window_bound_and_reset ⟨2, 60, true⟩ "rate:a:0" 0).2.2
    (by decide) [⟨"a", 0, true⟩] "a" 60 true (by decide)
  exact ⟨hA, hB, hC⟩

/-! ### C6: response-cache capacity bound and recency eviction -/

theorem jsGet_isSome_iff_mem (m : List (String × A)) (k : String) :
    (jsGet m k).isSome = true ↔ k ∈ m.map Prod.fst := by
  induction m with
  | nil => simp [jsGet]
  | cons p rest ih =>
    rw [jsGet_cons]
    by_cases h : p.1 = k
    · simp [h]
    · simp only [List.map_cons, List.mem_cons]
      rw [if_neg h, ih]
      constructor
      · intro hx
        exact Or.inr hx
      · intro hx
        rcases hx with hx | hx
        · exact absurd hx.symm h
        · exact hx

theorem keys_map_replace (m : List (String × A)) (k : String) (v : A) :
    (m.map (fun q => if q.1 == k then (k, v) else q)).map Prod.fst =
      m.map Prod.fst := by
  induction m with
  | nil => rfl
  | cons p rest ih =>
    show (if (p.1 == k) = true then (k, v) else p).1 ::
        (rest.map (fun q => if q.1 == k then (k, v) else q)).map Prod.fst =
      p.1 :: rest.map Prod.fst
    rw [ih]
    by_cases hp : p.1 = k
    · rw [if_pos (by simpa using hp)]
      simp [hp]
    · rw [if_neg (by simpa using hp)]

theorem keys_jsSet_present (m : List (String × A)) (k : String) (v : A)
    (h : (jsGet m k).isSome = true) :
    (jsSet m k v).map Prod.fst = m.map Prod.fst := by
  rw [jsSet_eq_cases, if_pos h]
  exact keys_map_replace m k v

theorem keys_jsSet_absent (m : List (String × A)) (k : String) (v : A)
    (h : jsGet m k = none) :
    (jsSet m k v).map Prod.fst = m.map Prod.fst ++ [k] := by
  rw [jsSet_eq_cases, if_neg (by simp [h])]
  simp

theorem keys_jsDelete (m : List (String × A)) (k : String) :
    (jsDelete m k).map Prod.fst =
      (m.map Prod.fst).filter (fun x => ¬ x == k) := by
  induction m with
  | nil => rfl
  | cons p rest ih =>
    rw [jsDelete_cons]
    by_cases h : p.1 = k
    · rw [if_pos h]
      simp only [List.map_cons, List.filter_cons]
      rw [if_neg (by simp [h])]
      exact ih
    · rw [if_neg h]
      simp only [List.map_cons, List.filter_cons]
      rw [if_pos (by simp [h])]
      rw [ih]

theorem WF_empty (T : Type) : ServerCache.WF (ServerCacheState.empty (T := T)) := by
  refine ⟨by simp [ServerCacheState.empty], by simp [ServerCacheState.empty], ?_⟩
  intro k
  simp [ServerCacheState.empty, jsGet]

theorem WF_length_eq (s : ServerCacheState T) (h : ServerCache.WF s) :
    s.accessOrder.length = s.cache.length := by
  obtain ⟨h1, h2, h3⟩ := h
  have hperm : s.accessOrder.Perm (s.cache.map Prod.fst) := by
    apply List.perm_of_nodup_nodup_toFinset_eq h2 h1
    ext x
    simp only [List.mem_toFinset]
    rw [h3 x, jsGet_isSome_iff_mem]
  have := hperm.length_eq
  simpa using this

theorem jsGet_none_iff_not_mem (m : List (String × A)) (k : String) :
    jsGet m k = none ↔ ¬ k ∈ m.map Prod.fst := by
  rw [← jsGet_isSome_iff_mem]
  cases jsGet m k <;> simp

theorem jsDelete_eq_self_of_none (m : List (String × A)) (k : String)
    (h : jsGet m k = none) : jsDelete m k = m := by
  induction m with
  | nil => rfl
  | cons p rest ih =>
    rw [jsGet_cons] at h
    by_cases hp : p.1 = k
    · rw [if_pos hp] at h
      exact absurd h (by simp)
    · rw [if_neg hp] at h
      rw [jsDelete_cons, if_neg hp, ih h]

theorem length_jsDelete_of_mem (m : List (String × A)) (k : String)
    (hnd : (m.map Prod.fst).Nodup) (h : (jsGet m k).isSome = true) :
    (jsDelete m k).length = m.length - 1 := by
  induction m with
  | nil => simp [jsGet] at h
  | cons p rest ih =>
    simp only [List.map_cons, List.nodup_cons] at hnd
    rw [jsGet_cons] at h
    by_cases hp : p.1 = k
    · rw [jsDelete_cons, if_pos hp]
      have hrest : jsGet rest k = none := by
        rw [jsGet_none_iff_not_mem]
        rw [hp] at hnd
        exact hnd.1
      rw [jsDelete_eq_self_of_none rest k hrest]
      simp
    · rw [if_neg hp] at h
      rw [jsDelete_cons, if_neg hp]
      have hmem : k ∈ rest.map Prod.fst := (jsGet_isSome_iff_mem _ _).mp h
      have hpos : 0 < rest.length := by
        cases rest with
        | nil => simp at hmem
        | cons q r2 => simp
      simp only [List.length_cons, ih hnd.2 h]
      omega

theorem mem_filter_ne (l : List String) (key x : String) :
    x ∈ l.filter (fun y => ¬ y == key) ↔ x ∈ l ∧ x ≠ key := by
  simp [List.mem_filter]

theorem WF_remove_delete (s : ServerCacheState T) (key : String)
    (h : ServerCache.WF s) :
    ServerCache.WF ⟨jsDelete s.cache key,
      s.accessOrder.filter (fun x => ¬ x == key)⟩ := by
  obtain ⟨h1, h2, h3⟩ := h
  refine ⟨?_, h2.filter _, ?_⟩
  · rw [keys_jsDelete]
    exact h1.filter _
  · intro x
    rw [show (⟨jsDelete s.cache key,
        s.accessOrder.filter (fun x => ¬ x == key)⟩ :
        ServerCacheState T).accessOrder =
      s.accessOrder.filter (fun x => ¬ x == key) from rfl]
    rw [mem_filter_ne]
    by_cases hx : x = key
    · subst hx
      rw [show jsGet (⟨jsDelete s.cache x,
          s.accessOrder.filter (fun y => ¬ y == x)⟩ :
          ServerCacheState T).cache x = none from jsGet_delete_self _ _]
      simp
    · rw [show (⟨jsDelete s.cache key,
          s.accessOrder.filter (fun y => ¬ y == key)⟩ :
          ServerCacheState T).cache = jsDelete s.cache key from rfl]
      rw [jsGet_delete_ne _ _ _ hx, ← h3 x]
      simp [hx]

theorem WF_updateAccessOrder (s : ServerCacheState T) (key : String)
    (h : ServerCache.WF s) (hmem : (jsGet s.cache key).isSome = true) :
    ServerCache.WF (ServerCache.updateAccessOrder s key) := by
  obtain ⟨h1, h2, h3⟩ := h
  unfold ServerCache.updateAccessOrder ServerCache.removeFromAccessOrder
  refine ⟨h1, ?_, ?_⟩
  · rw [List.nodup_append]
    refine ⟨h2.filter _, by simp, ?_⟩
    intro x hx
    rw [mem_filter_ne] at hx
    simp only [List.mem_singleton]
    exact hx.2
  · intro x
    simp only [List.mem_append, List.mem_singleton, mem_filter_ne]
    by_cases hx : x = key
    · subst hx
      simp [hmem]
    · rw [← h3 x]
      constructor
      · intro hc
        rcases hc with hc | hc
        · exact hc.1
        · exact absurd hc hx
      · intro hc
        exact Or.inl ⟨hc, hx⟩

theorem WF_insert_touch (s : ServerCacheState T) (key : String)
    (v : SCEntry T) (h : ServerCache.WF s) :
    ServerCache.WF (ServerCache.updateAccessOrder
      ⟨jsSet s.cache key v, s.accessOrder⟩ key) := by
  obtain ⟨h1, h2, h3⟩ := h
  unfold ServerCache.updateAccessOrder ServerCache.removeFromAccessOrder
  refine ⟨?_, ?_, ?_⟩
  · by_cases hp : (jsGet s.cache key).isSome = true
    · rw [show (⟨jsSet s.cache key v, s.accessOrder⟩ :
          ServerCacheState T).cache = jsSet s.cache key v from rfl,
        keys_jsSet_present _ _ _ hp]
      exact h1
    · have hnone : jsGet s.cache key = none := by
        cases hj : jsGet s.cache key
        · rfl
        · rw [hj] at hp
          exact absurd rfl hp
      rw [show (⟨jsSet s.cache key v, s.accessOrder⟩ :
          ServerCacheState T).cache = jsSet s.cache key v from rfl,
        keys_jsSet_absent _ _ _ hnone]
      rw [List.nodup_append]
      refine ⟨h1, by simp, ?_⟩
      intro x hx
      simp only [List.mem_singleton]
      intro he
      subst he
      rw [jsGet_none_iff_not_mem] at hnone
      exact hnone hx
  · rw [List.nodup_append]
    refine ⟨h2.filter _, by simp, ?_⟩
    intro x hx
    rw [mem_filter_ne] at hx
    simp only [List.mem_singleton]
    exact hx.2
  · intro x
    simp only [List.mem_append, List.mem_singleton, mem_filter_ne]
    by_cases hx : x = key
    · subst hx
      rw [show jsGet (⟨jsSet s.cache x v, s.accessOrder⟩ :
          ServerCacheState T).cache x = some v from jsGet_set_self _ _ _]
      simp
    · rw [jsGet_set_ne _ _ _ _ hx, ← h3 x]
      constructor
      · intro hc
        rcases hc with hc | hc
        · exact hc.1
        · exact absurd hc hx
      · intro hc
        exact Or.inl ⟨hc, hx⟩

theorem WF_evictOldest (s : ServerCacheState T) (h : ServerCache.WF s) :
    ServerCache.WF (ServerCache.evictOldest s) := by
  obtain ⟨h1, h2, h3⟩ := h
  unfold ServerCache.evictOldest
  cases hacc : s.accessOrder with
  | nil => exact ⟨h1, h2, h3⟩
  | cons e rest =>
    rw [hacc] at h2 h3
    rw [List.nodup_cons] at h2
    show ServerCache.WF (⟨jsDelete s.cache e, rest⟩ : ServerCacheState T)
    refine ⟨?_, h2.2, ?_⟩
    · rw [show (⟨jsDelete s.cache e, rest⟩ : ServerCacheState T).cache =
        jsDelete s.cache e from rfl, keys_jsDelete]
      exact h1.filter _
    · intro x
      rw [show (⟨jsDelete s.cache e, rest⟩ :
          ServerCacheState T).accessOrder = rest from rfl]
      by_cases hx : x = e
      · subst hx
        rw [show jsGet (⟨jsDelete s.cache x, rest⟩ :
            ServerCacheState T).cache x = none from jsGet_delete_self _ _]
        simp [h2.1]
      · rw [show (⟨jsDelete s.cache e, rest⟩ :
            ServerCacheState T).cache = jsDelete s.cache e from rfl,
          jsGet_delete_ne _ _ _ hx]
        rw [← h3 x]
        simp [hx]

theorem WF_applyOp (cfg : CacheConfig) (s : ServerCacheState T) (op : SCOp T)
    (h : ServerCache.WF s) : ServerCache.WF (ServerCache.applyOp cfg s op) := by
  cases op with
  | get key now =>
    show ServerCache.WF (ServerCache.get cfg now s key).2
    unfold ServerCache.get
    cases hj : jsGet s.cache key with
    | none => exact h
    | some e =>
      dsimp only
      split
      · exact WF_remove_delete s key h
      · exact WF_updateAccessOrder s key h (by rw [hj]; rfl)
  | set key d ttl now =>
    show ServerCache.WF (ServerCache.set cfg now s key d ttl)
    unfold ServerCache.set
    dsimp only
    split
    · exact WF_insert_touch (ServerCache.evictOldest s) key _
        (WF_evictOldest s h)
    · exact WF_insert_touch s key _ h
  | del key =>
    exact WF_remove_delete s key h
  | clear =>
    exact WF_empty T

theorem length_applyOp (cfg : CacheConfig) (s : ServerCacheState T)
    (op : SCOp T) (h : ServerCache.WF s) (hmax : 1 ≤ cfg.maxEntries)
    (hlen : s.cache.length ≤ cfg.maxEntries) :
    (ServerCache.applyOp cfg s op).cache.length ≤ cfg.maxEntries := by
  cases op with
  | get key now =>
    show (ServerCache.get cfg now s key).2.cache.length ≤ cfg.maxEntries
    unfold ServerCache.get
    cases hj : jsGet s.cache key with
    | none => exact hlen
    | some e =>
      dsimp only
      split
      · show (jsDelete s.cache key).length ≤ cfg.maxEntries
        exact le_trans (jsDelete_length_le _ _) hlen
      · exact hlen
  | set key d ttl now =>
    show (ServerCache.set cfg now s key d ttl).cache.length ≤ cfg.maxEntries
    unfold ServerCache.set
    dsimp only
    by_cases hp : (jsGet s.cache key).isSome = true
    · rw [if_neg (by
        intro hc
        rw [Option.isNone_iff_eq_none] at hc
        rw [hc.2] at hp
        exact absurd hp (by simp))]
      show (jsSet s.cache key _).length ≤ cfg.maxEntries
      rw [jsSet_length, if_pos hp]
      exact hlen
    · have hnone : jsGet s.cache key = none := by
        cases hj : jsGet s.cache key
        · rfl
        · rw [hj] at hp
          exact absurd rfl hp
      by_cases hcap : s.cache.length ≥ cfg.maxEntries
      · rw [if_pos ⟨hcap, by rw [hnone]; rfl⟩]
        have haccl : s.accessOrder.length = s.cache.length := WF_length_eq s h
        cases hacc : s.accessOrder with
        | nil =>
          rw [hacc] at haccl
          simp at haccl
          omega
        | cons e rest =>
          have hemem : (jsGet s.cache e).isSome = true := by
            rw [← (h.2.2 e)]
            rw [hacc]
            simp
          have hene : key ≠ e := by
            intro hh
            rw [hh] at hnone
            rw [hnone] at hemem
            exact absurd hemem (by simp)
          unfold ServerCache.evictOldest
          rw [hacc]
          dsimp only
          show (jsSet (jsDelete s.cache e) key _).length ≤ cfg.maxEntries
          rw [jsSet_length, if_neg (by
            rw [jsGet_delete_ne _ _ _ hene, hnone]
            simp)]
          rw [length_jsDelete_of_mem _ _ h.1 hemem]
          omega
      · rw [if_neg (fun hc => hcap hc.1)]
        show (jsSet s.cache key _).length ≤ cfg.maxEntries
        rw [jsSet_length, if_neg (by rw [hnone]; simp)]
        omega
  | del key =>
    show (jsDelete (ServerCache.removeFromAccessOrder s key).cache
      key).length ≤ cfg.maxEntries
    exact le_trans (jsDelete_length_le _ _) hlen
  | clear =>
    show (0 : Nat) ≤ cfg.maxEntries
    omega

theorem runOps_WF_length (cfg : CacheConfig) (hmax : 1 ≤ cfg.maxEntries)
    (ops : List (SCOp T)) :
    ∀ (s : ServerCacheState T), ServerCache.WF s →
    s.cache.length ≤ cfg.maxEntries →
    ServerCache.WF (ServerCache.runOps cfg s ops) ∧
      (ServerCache.runOps cfg s ops).cache.length ≤ cfg.maxEntries := by
  induction ops with
  | nil => intro s h hl; exact ⟨h, hl⟩
  | cons op rest ih =>
    intro s h hl
    exact ih _ (WF_applyOp cfg s op h) (length_applyOp cfg s op h hmax hl)

theorem evictOldest_accessOrder (s : ServerCacheState T) :
    (ServerCache.evictOldest s).accessOrder = s.accessOrder.tail := by
  unfold ServerCache.evictOldest
  cases hacc : s.accessOrder with
  | nil => exact hacc
  | cons e rest => rfl

theorem pairwise_touch (f fNew : String → Nat) (tick : Nat) (key : String)
    (acc sub : List String)
    (hpw : acc.Pairwise (fun a b => f a < f b))
    (hbound : ∀ x, f x < tick)
    (hsub : sub.Sublist (acc.filter (fun y => ¬ y == key)))
    (hf : ∀ x, x ≠ key → fNew x = f x) (hfk : fNew key = tick) :
    (sub ++ [key]).Pairwise (fun a b => fNew a < fNew b) := by
  have hsubne : ∀ x ∈ sub, x ≠ key := by
    intro x hx
    have hm := hsub.subset hx
    rw [mem_filter_ne] at hm
    exact hm.2
  rw [List.pairwise_append]
  refine ⟨?_, by simp, ?_⟩
  · have hs2 : sub.Pairwise (fun a b => f a < f b) :=
      (hpw.sublist (hsub.trans (List.filter_sublist _)))
    exact hs2.imp_of_mem (fun ha hb hr => by
      rw [hf _ (hsubne _ ha), hf _ (hsubne _ hb)]
      exact hr)
  · intro a ha b hb
    simp only [List.mem_singleton] at hb
    subst hb
    rw [hf _ (hsubne _ ha), hfk]
    exact hbound a

theorem GhostInv_step (cfg : CacheConfig) (sg : ServerCacheState T × SCGhost)
    (op : SCOp T) (h : ServerCache.GhostInv sg) :
    ServerCache.GhostInv (ServerCache.stepG cfg sg op) := by
  obtain ⟨hWF, hpw, hbound⟩ := h
  refine ⟨WF_applyOp cfg sg.1 op hWF, ?_, ?_⟩
  · show (ServerCache.applyOp cfg sg.1 op).accessOrder.Pairwise
      (fun a b =>
        (if ServerCache.touchedKey cfg sg.1 op = some a then sg.2.tick
          else sg.2.lastTouch a) <
        (if ServerCache.touchedKey cfg sg.1 op = some b then sg.2.tick
          else sg.2.lastTouch b))
    have hfid : ∀ (t? : Option String), t? = none →
        ∀ x, (if t? = some x then sg.2.tick else sg.2.lastTouch x) =
          sg.2.lastTouch x := by
      intro t? ht x
      rw [ht, if_neg (by simp)]
    have hfne : ∀ (key x : String), x ≠ key →
        (if some key = some x then sg.2.tick else sg.2.lastTouch x) =
          sg.2.lastTouch x :=
      fun key x hx => if_neg (fun hh => hx (Option.some.inj hh).symm)
    cases op with
    | get key now =>
      unfold ServerCache.applyOp ServerCache.get ServerCache.touchedKey
      cases hj : jsGet sg.1.cache key with
      | none =>
        simp only [hj]
        exact hpw.imp (fun hr => by
          rw [hfid _ rfl, hfid _ rfl]
          exact hr)
      | some e =>
        simp only [hj]
        by_cases hexp : now > e.expires + cfg.staleWindow
        · rw [if_pos hexp, if_pos hexp]
          show (sg.1.accessOrder.filter (fun y => ¬ y == key)).Pairwise _
          exact ((hpw.sublist (List.filter_sublist _)).imp (fun hr => by
            rw [hfid _ rfl, hfid _ rfl]
            exact hr))
        · rw [if_neg hexp, if_neg hexp]
          show ((sg.1.accessOrder.filter (fun y => ¬ y == key)) ++
            [key]).Pairwise _
          exact pairwise_touch sg.2.lastTouch _ sg.2.tick key
            sg.1.accessOrder _ hpw hbound (List.Sublist.refl _)
            (hfne key) (if_pos rfl)
    | set key d ttl now =>
      unfold ServerCache.applyOp ServerCache.set ServerCache.touchedKey
      dsimp only
      split
      · show (((ServerCache.evictOldest
            sg.1).accessOrder.filter (fun y => ¬ y == key)) ++
            [key]).Pairwise _
        refine pairwise_touch sg.2.lastTouch _ sg.2.tick key
          sg.1.accessOrder _ hpw hbound ?_ (hfne key) (if_pos rfl)
        rw [evictOldest_accessOrder]
        exact (List.tail_sublist _).filter _
      · show (((sg.1).accessOrder.filter (fun y => ¬ y == key)) ++
            [key]).Pairwise _
        exact pairwise_touch sg.2.lastTouch _ sg.2.tick key
          sg.1.accessOrder _ hpw hbound (List.Sublist.refl _)
          (hfne key) (if_pos rfl)
    | del key =>
      show ((sg.1.accessOrder.filter (fun y => ¬ y == key))).Pairwise _
      exact ((hpw.sublist (List.filter_sublist _)).imp (fun hr => by
        rw [hfid (ServerCache.touchedKey cfg sg.1 (SCOp.del key)) rfl,
          hfid (ServerCache.touchedKey cfg sg.1 (SCOp.del key)) rfl]
        exact hr))
    | clear =>
      show ([] : List String).Pairwise _
      simp
  · intro x
    show (if ServerCache.touchedKey cfg sg.1 op = some x then sg.2.tick
      else sg.2.lastTouch x) < sg.2.tick + 1
    split
    · omega
    · exact lt_trans (hbound x) (by omega)

theorem GhostInv_run (cfg : CacheConfig) (ops : List (SCOp T)) :
    ∀ (sg : ServerCacheState T × SCGhost), ServerCache.GhostInv sg →
    ServerCache.GhostInv (ServerCache.runG cfg sg ops) := by
  induction ops with
  | nil => intro sg h; exact h
  | cons op rest ih =>
    intro sg h
    exact ih _ (GhostInv_step cfg sg op h)

theorem runG_fst (cfg : CacheConfig) (ops : List (SCOp T)) :
    ∀ (sg : ServerCacheState T × SCGhost),
    (ServerCache.runG cfg sg ops).1 = ServerCache.runOps cfg sg.1 ops := by
  induction ops with
  | nil => intro sg; rfl
  | cons op rest ih =>
    intro sg
    show (ServerCache.runG cfg (ServerCache.stepG cfg sg op) rest).1 = _
    rw [ih]
    rfl

theorem GhostInv_empty (T : Type) :
    ServerCache.GhostInv ((ServerCacheState.empty (T := T)),
      ⟨fun _ => 0, 1⟩) := by
  refine ⟨WF_empty T, by simp [ServerCacheState.empty], ?_⟩
  intro x
  show (0 : Nat) < 1
  omega

theorem filter_ne_eq_self (l : List String) (key : String) (h : key ∉ l) :
    l.filter (fun y => ¬ y == key) = l := by
  apply List.filter_eq_self.mpr
  intro x hx
  have hne : x ≠ key := fun hh => h (hh ▸ hx)
  simp [hne]

theorem updateAccessOrder_acc (s : ServerCacheState T) (key : String) :
    (ServerCache.updateAccessOrder s key).accessOrder =
      s.accessOrder.filter (fun y => ¬ y == key) ++ [key] := rfl

theorem runOps_sets_fifo (cfg : CacheConfig) (hmax : 1 ≤ cfg.maxEntries)
    (d : T) (ttl : Option Int) (now : Int) (keys : List String) :
    ∀ (s : ServerCacheState T), ServerCache.WF s →
    s.cache.length ≤ cfg.maxEntries →
    (∀ k2 ∈ keys, jsGet s.cache k2 = none) → keys.Nodup →
    (ServerCache.runOps cfg s
      (keys.map (fun k2 => SCOp.set k2 d ttl now))).accessOrder =
      (s.accessOrder ++ keys).drop
        ((s.accessOrder ++ keys).length - cfg.maxEntries) := by
  induction keys with
  | nil =>
    intro s hWF hlen _ _
    have hacl := WF_length_eq s hWF
    have hz : (s.accessOrder ++ ([] : List String)).length -
        cfg.maxEntries = 0 := by
      simp only [List.append_nil]
      omega
    rw [hz, List.drop_zero, List.append_nil]
    rfl
  | cons key ks ih =>
    intro s hWF hlen hfresh hnd
    have hknone : jsGet s.cache key = none := hfresh key (by simp)
    have hkey_not_acc : key ∉ s.accessOrder := by
      intro hmem
      have := (hWF.2.2 key).mp hmem
      rw [hknone] at this
      exact absurd this (by simp)
    have hacl := WF_length_eq s hWF
    rw [List.nodup_cons] at hnd
    show (ServerCache.runOps cfg
      (ServerCache.applyOp cfg s (SCOp.set key d ttl now))
      (ks.map (fun k2 => SCOp.set k2 d ttl now))).accessOrder = _
    have hWF2 := WF_applyOp cfg s (SCOp.set key d ttl now) hWF
    have hlen2 := length_applyOp cfg s (SCOp.set key d ttl now) hWF hmax hlen
    by_cases hcap : s.cache.length ≥ cfg.maxEntries
    · -- at capacity: the head of the recency list is evicted
      obtain ⟨e, rest, hacc⟩ : ∃ e rest, s.accessOrder = e :: rest := by
        cases hc : s.accessOrder with
        | nil =>
          rw [hc] at hacl
          simp at hacl
          omega
        | cons e rest => exact ⟨e, rest, rfl⟩
      have hev : ServerCache.evictOldest s =
          ⟨jsDelete s.cache e, rest⟩ := by
        unfold ServerCache.evictOldest
        rw [hacc]
      have hemem : (jsGet s.cache e).isSome = true := by
        rw [← (hWF.2.2 e), hacc]
        simp
      have hene : ∀ k2, jsGet s.cache k2 = none → k2 ≠ e := by
        intro k2 hn hh
        rw [← hh, hn] at hemem
        exact absurd hemem (by simp)
      have hstep : ServerCache.applyOp cfg s (SCOp.set key d ttl now) =
          ServerCache.updateAccessOrder
            ⟨jsSet (jsDelete s.cache e) key
              ⟨d, now + ttl.getD cfg.defaultTTL,
                now + ttl.getD cfg.defaultTTL - cfg.staleWindow⟩, rest⟩
            key := by
        show ServerCache.set cfg now s key d ttl = _
        unfold ServerCache.set
        dsimp only
        rw [if_pos ⟨hcap, by rw [hknone]; rfl⟩, hev]
      have hkrest : key ∉ rest := by
        intro hmem
        exact hkey_not_acc (by rw [hacc]; exact List.mem_cons_of_mem _ hmem)
      have hsacc : (ServerCache.applyOp cfg s
          (SCOp.set key d ttl now)).accessOrder = rest ++ [key] := by
        rw [hstep, updateAccessOrder_acc]
        show rest.filter (fun y => ¬ y == key) ++ [key] = rest ++ [key]
        rw [filter_ne_eq_self rest key hkrest]
      have hfresh2 : ∀ k2 ∈ ks, jsGet (ServerCache.applyOp cfg s
          (SCOp.set key d ttl now)).cache k2 = none := by
        intro k2 hk2
        have hn := hfresh k2 (List.mem_cons_of_mem _ hk2)
        rw [hstep]
        show jsGet (jsSet (jsDelete s.cache e) key _) k2 = none
        rw [jsGet_set_ne _ _ _ _ (fun hh => hnd.1 (by rw [← hh]; exact hk2)),
          jsGet_delete_ne _ _ _ (hene k2 hn), hn]
      have hih := ih _ hWF2 hlen2 hfresh2 hnd.2
      rw [hih, hsacc]
      rw [hacc]
      have hrl : rest.length = cfg.maxEntries - 1 := by
        rw [hacc] at hacl
        simp only [List.length_cons] at hacl
        omega
      have harith : ((e :: rest) ++ key :: ks).length - cfg.maxEntries =
          (((rest ++ [key]) ++ ks).length - cfg.maxEntries) + 1 := by
        simp only [List.length_append, List.length_cons, List.length_nil]
        omega
      rw [harith, List.cons_append, List.drop_succ_cons,
        List.append_assoc, List.singleton_append]
    · -- below capacity: plain append
      have hstep : ServerCache.applyOp cfg s (SCOp.set key d ttl now) =
          ServerCache.updateAccessOrder
            ⟨jsSet s.cache key
              ⟨d, now + ttl.getD cfg.defaultTTL,
                now + ttl.getD cfg.defaultTTL - cfg.staleWindow⟩,
              s.accessOrder⟩ key := by
        show ServerCache.set cfg now s key d ttl = _
        unfold ServerCache.set
        dsimp only
        rw [if_neg (fun hc => hcap hc.1)]
      have hsacc : (ServerCache.applyOp cfg s
          (SCOp.set key d ttl now)).accessOrder =
          s.accessOrder ++ [key] := by
        rw [hstep, updateAccessOrder_acc]
        show s.accessOrder.filter (fun y => ¬ y == key) ++ [key] = _
        rw [filter_ne_eq_self _ key hkey_not_acc]
      have hfresh2 : ∀ k2 ∈ ks, jsGet (ServerCache.applyOp cfg s
          (SCOp.set key d ttl now)).cache k2 = none := by
        intro k2 hk2
        have hn := hfresh k2 (List.mem_cons_of_mem _ hk2)
        rw [hstep]
        show jsGet (jsSet s.cache key _) k2 = none
        rw [jsGet_set_ne _ _ _ _ (fun hh => hnd.1 (by rw [← hh]; exact hk2)), hn]
      have hih := ih _ hWF2 hlen2 hfresh2 hnd.2
      rw [hih, hsacc]
      rw [List.append_assoc, List.singleton_append]

/-- C6: (1) the Response Cache never holds more than maxEntries
entries along any operation sequence; (2) when a set of a new key
occurs at capacity, the evicted key is the head of the recency list,
which is least-recently-touched: its last-touch step index precedes
that of every key the cache keeps (recency updated on both get and
set); (3) inserting maxEntries + k distinct keys into an empty cache
leaves exactly the last maxEntries of them — the k least-recently
inserted keys are gone. -/
theorem c6_response_cache_eviction (T : Type) (cfg : CacheConfig)
    (hmax : 1 ≤ cfg.maxEntries) :
    (∀ (ops : List (SCOp T)),
      (ServerCache.runOps cfg ServerCacheState.empty ops).cache.length ≤
        cfg.maxEntries) ∧
    (∀ (ops : List (SCOp T)) (key : String) (d : T) (ttl : Option Int)
        (now : Int) (e : String) (rest : List String),
      (ServerCache.runG cfg (ServerCacheState.empty,
        ⟨fun _ => 0, 1⟩) ops).1.accessOrder = e :: rest →
      cfg.maxEntries ≤ (ServerCache.runG cfg (ServerCacheState.empty,
        ⟨fun _ => 0, 1⟩) ops).1.cache.length →
      jsGet (ServerCache.runG cfg (ServerCacheState.empty,
        ⟨fun _ => 0, 1⟩) ops).1.cache key = none →
      jsGet (ServerCache.set cfg now (ServerCache.runG cfg
        (ServerCacheState.empty, ⟨fun _ => 0, 1⟩) ops).1 key d
        ttl).cache e = none ∧
      (∀ x ∈ rest, (ServerCache.runG cfg (ServerCacheState.empty,
        ⟨fun _ => 0, 1⟩) ops).2.lastTouch e <
        (ServerCache.runG cfg (ServerCacheState.empty,
          ⟨fun _ => 0, 1⟩) ops).2.lastTouch x)) ∧
    (∀ (keys : List String) (d : T) (ttl : Option Int) (now : Int)
        (kk : Nat),
      keys.Nodup → keys.length = cfg.maxEntries + kk →
      (ServerCache.runOps cfg ServerCacheState.empty
        (keys.map (fun k2 => SCOp.set k2 d ttl now))).accessOrder =
        keys.drop kk ∧
      (∀ x ∈ keys.take kk, jsGet (ServerCache.runOps cfg
        ServerCacheState.empty
        (keys.map (fun k2 => SCOp.set k2 d ttl now))).cache x = none) ∧
      (∀ x ∈ keys.drop kk, (jsGet (ServerCache.runOps cfg
        ServerCacheState.empty
        (keys.map (fun k2 => SCOp.set k2 d ttl now))).cache x).isSome =
        true)) := by
  refine ⟨?_, ?_, ?_⟩
  · intro ops
    exact (runOps_WF_length cfg hmax ops ServerCacheState.empty (WF_empty T)
      (Nat.zero_le _)).2
  · intro ops key d ttl now e rest hacc hcap hknone
    have hInv := GhostInv_run cfg ops (ServerCacheState.empty,
      ⟨fun _ => 0, 1⟩) (GhostInv_empty T)
    obtain ⟨hWF, hpw, _⟩ := hInv
    constructor
    · have hev : ServerCache.evictOldest (ServerCache.runG cfg
          (ServerCacheState.empty, ⟨fun _ => 0, 1⟩) ops).1 =
          ⟨jsDelete (ServerCache.runG cfg (ServerCacheState.empty,
            ⟨fun _ => 0, 1⟩) ops).1.cache e, rest⟩ := by
        unfold ServerCache.evictOldest
        rw [hacc]
      have hemem : (jsGet (ServerCache.runG cfg (ServerCacheState.empty,
          ⟨fun _ => 0, 1⟩) ops).1.cache e).isSome = true := by
        rw [← (hWF.2.2 e), hacc]
        simp
      have hene : key ≠ e := by
        intro hh
        rw [← hh, hknone] at hemem
        exact absurd hemem (by simp)
      show jsGet (ServerCache.set cfg now _ key d ttl).cache e = none
      unfold ServerCache.set
      dsimp only
      rw [if_pos ⟨hcap, by rw [hknone]; rfl⟩, hev]
      show jsGet (jsSet (jsDelete _ e) key _) e = none
      rw [jsGet_set_ne _ _ _ _ (Ne.symm hene), jsGet_delete_self]
    · rw [hacc] at hpw
      exact (List.pairwise_cons.mp hpw).1
  · intro keys d ttl now kk hnd hlenk
    have hfifo := runOps_sets_fifo cfg hmax d ttl now keys
      ServerCacheState.empty (WF_empty T) (Nat.zero_le _)
      (fun k2 _ => by
        show jsGet ([] : List (String × SCEntry T)) k2 = none
        exact jsGet_nil k2) hnd
    have hWFf := (runOps_WF_length cfg hmax
      (keys.map (fun k2 => SCOp.set k2 d ttl now)) ServerCacheState.empty
      (WF_empty T) (Nat.zero_le _)).1
    have hkk : ((ServerCacheState.empty (T := T)).accessOrder ++
        keys).length - cfg.maxEntries = kk := by
      show (([] : List String) ++ keys).length - cfg.maxEntries = kk
      simp only [List.nil_append]
      omega
    rw [hkk] at hfifo
    have haccf : (ServerCache.runOps cfg ServerCacheState.empty
        (keys.map (fun k2 => SCOp.set k2 d ttl now))).accessOrder =
        keys.drop kk := by
      rw [hfifo]
      show List.drop kk (([] : List String) ++ keys) = List.drop kk keys
      rw [List.nil_append]
    refine ⟨haccf, ?_, ?_⟩
    · intro x hx
      have hdisj := List.disjoint_take_drop (l := keys) hnd (le_refl kk)
      have hnotin : x ∉ keys.drop kk := fun hmem => hdisj hx hmem
      rw [← haccf] at hnotin
      have := (hWFf.2.2 x)
      cases hj : jsGet (ServerCache.runOps cfg ServerCacheState.empty
          (keys.map (fun k2 => SCOp.set k2 d ttl now))).cache x with
      | none => rfl
      | some v =>
        exfalso
        apply hnotin
        rw [this, hj]
        rfl
    · intro x hx
      rw [← haccf] at hx
      exact (hWFf.2.2 x).mp hx

/-- C6 witness: maxEntries = 2; after inserting "a" then "b", a set of
the fresh key "c" evicts "a" (the least-recently-touched key); and
inserting the 3 distinct keys a, b, c leaves exactly [b, c]. -/
theorem c6_response_cache_eviction_witness :
    ((ServerCache.runOps ⟨1000, 60, 2⟩ ServerCacheState.empty
      [SCOp.set "a" (1 : Nat) none 0, SCOp.set "b" 2 none 1]).cache.length ≤
        2) ∧
    ((ServerCache.runG ⟨1000, 60, 2⟩ (ServerCacheState.empty,
        ⟨fun _ => 0, 1⟩)
        [SCOp.set "a" (1 : Nat) none 0,
          SCOp.set "b" 2 none 1]).1.accessOrder = "a" :: ["b"] ∧
      jsGet (ServerCache.set ⟨1000, 60, 2⟩ 5 (ServerCache.runG
        ⟨1000, 60, 2⟩ (ServerCacheState.empty, ⟨fun _ => 0, 1⟩)
        [SCOp.set "a" (1 : Nat) none 0, SCOp.set "b" 2 none 1]).1 "c" 9
        none).cache "a" = none) ∧
    ((ServerCache.runOps ⟨1000, 60, 2⟩ ServerCacheState.empty
      (["a", "b", "c"].map
        (fun k2 => SCOp.set k2 (7 : Nat) none 0))).accessOrder =
      ["a", "b", "c"].drop 1) := by
  have hA := (c6_response_cache_eviction Nat ⟨1000, 60, 2⟩ (by decide)).1
    [SCOp.set "a" (1 : Nat) none 0, SCOp.set "b" 2 none 1]
  have hB := (c6_response_cache_eviction Nat ⟨1000, 60, 2⟩ (by decide)).2.1
    [SCOp.set "a" (1 : Nat) none 0, SCOp.set "b" 2 none 1] "c" 9 none 5
    "a" ["b"] rfl (by decide) rfl
  have hC := (c6_response_cache_eviction Nat ⟨1000, 60, 2⟩ (by decide)).2.2
    ["a", "b", "c"] 7 none 0 1 (by decide) rfl
  exact ⟨hA, ⟨rfl, hB.1⟩, hC.1⟩

/-! ### C8: cache-key canonicalization -/

theorem collapseWsAux_cons (b : Bool) (c : Char) (l : List Char) :
    collapseWsAux b (c :: l) =
      if isWs c = true then
        (if b = true then collapseWsAux true l
          else ' ' :: collapseWsAux true l)
      else c :: collapseWsAux false l := rfl

theorem collapse_ws_run_true (r : List Char) (l : List Char)
    (hws : r.all isWs = true) :
    collapseWsAux true (r ++ l) = collapseWsAux true l := by
  induction r with
  | nil => rfl
  | cons c rest ih =>
    simp only [List.all_cons, Bool.and_eq_true] at hws
    rw [List.cons_append, collapseWsAux_cons, if_pos hws.1, if_pos rfl]
    exact ih hws.2

theorem collapse_ws_run_false (r : List Char) (l : List Char)
    (hne : r ≠ []) (hws : r.all isWs = true) :
    collapseWsAux false (r ++ l) = ' ' :: collapseWsAux true l := by
  cases r with
  | nil => exact absurd rfl hne
  | cons c rest =>
    simp only [List.all_cons, Bool.and_eq_true] at hws
    rw [List.cons_append, collapseWsAux_cons, if_pos hws.1,
      if_neg (by simp), collapse_ws_run_true rest l hws.2]

theorem WsEquiv.collapse (l1 l2 : List Char) (h : WsEquiv l1 l2) :
    ∀ b, collapseWsAux b l1 = collapseWsAux b l2 := by
  induction h with
  | nil => intro b; rfl
  | cons c l1 l2 hc hr ih =>
    intro b
    rw [collapseWsAux_cons, collapseWsAux_cons, if_neg (by simp [hc]),
      if_neg (by simp [hc]), ih false]
  | ws r1 r2 l1 l2 h1 h2 hr ih =>
    intro b
    cases b with
    | true =>
      rw [collapse_ws_run_true r1 l1 h1.2, collapse_ws_run_true r2 l2 h2.2,
        ih true]
    | false =>
      rw [collapse_ws_run_false r1 l1 h1.1 h1.2,
        collapse_ws_run_false r2 l2 h2.1 h2.2, ih true]

theorem normalizeQuery_wsEquiv (q1 q2 : String)
    (h : WsEquiv q1.toList q2.toList) :
    normalizeQuery q1 = normalizeQuery q2 := by
  unfold normalizeQuery
  rw [WsEquiv.collapse _ _ h false]

theorem sortedKeys_perm (fs1 fs2 : List (String × Json))
    (h : fs1.Perm fs2) : sortedKeys fs1 = sortedKeys fs2 := by
  unfold sortedKeys
  have htrans : ∀ (a b c : String), decide (a ≤ b) = true →
      decide (b ≤ c) = true → decide (a ≤ c) = true := by
    intro a b c hab hbc
    simp only [decide_eq_true_eq] at hab hbc ⊢
    exact le_trans hab hbc
  have htotal : ∀ (a b : String),
      (decide (a ≤ b) || decide (b ≤ a)) = true := by
    intro a b
    rcases le_total a b with hle | hle <;> simp [hle]
  have hs1 := List.sorted_mergeSort htrans htotal
    (fs1.map (fun p => p.1))
  have hs2 := List.sorted_mergeSort htrans htotal
    (fs2.map (fun p => p.1))
  have hsorted1 : List.Sorted (fun a b : String => a ≤ b)
      ((fs1.map (fun p => p.1)).mergeSort (fun a b => decide (a ≤ b))) :=
    hs1.imp (fun hab => by simpa using hab)
  have hsorted2 : List.Sorted (fun a b : String => a ≤ b)
      ((fs2.map (fun p => p.1)).mergeSort (fun a b => decide (a ≤ b))) :=
    hs2.imp (fun hab => by simpa using hab)
  have hperm : ((fs1.map (fun p => p.1)).mergeSort
      (fun a b => decide (a ≤ b))).Perm
      ((fs2.map (fun p => p.1)).mergeSort (fun a b => decide (a ≤ b))) :=
    ((List.mergeSort_perm _ _).trans (h.map _)).trans
      (List.mergeSort_perm _ _).symm
  exact List.eq_of_perm_of_sorted hperm hsorted1 hsorted2

theorem jsGet_perm (fs1 fs2 : List (String × Json)) (h : fs1.Perm fs2)
    (hnd : (fs1.map Prod.fst).Nodup) :
    ∀ k, jsGet fs1 k = jsGet fs2 k := by
  induction h with
  | nil => intro k; rfl
  | cons p t ih =>
    intro k
    rw [jsGet_cons, jsGet_cons]
    simp only [List.map_cons, List.nodup_cons] at hnd
    rw [ih hnd.2 k]
  | swap p q l =>
    intro k
    simp only [List.map_cons, List.nodup_cons, List.mem_cons] at hnd
    rw [jsGet_cons, jsGet_cons, jsGet_cons, jsGet_cons]
    by_cases hqk : q.1 = k
    · rw [if_pos hqk]
      by_cases hpk : p.1 = k
      · exfalso
        exact hnd.1 (Or.inl (by rw [hqk, hpk]))
      · rw [if_neg hpk, if_pos hqk]
    · rw [if_neg hqk]
      by_cases hpk : p.1 = k
      · rw [if_pos hpk, if_pos hpk]
      · rw [if_neg hpk, if_neg hpk, if_neg hqk]
  | trans h1 h2 ih1 ih2 =>
    intro k
    rw [ih1 hnd k]
    have hnd2 := ((h1.map Prod.fst).nodup_iff).mp hnd
    rw [ih2 hnd2 k]

theorem find?_eq_jsGet (fs : List (String × Json)) (k : String) :
    fs.find? (fun q => q.1 == k) = (jsGet fs k).map (fun v => (k, v)) := by
  induction fs with
  | nil => rfl
  | cons p rest ih =>
    rw [jsGet_cons]
    by_cases hp : p.1 = k
    · rw [List.find?_cons_of_pos _ (by simpa using hp), if_pos hp]
      obtain ⟨p1, p2⟩ := p
      simp only at hp
      rw [hp]
      rfl
    · rw [List.find?_cons_of_neg _ (by simpa using hp), if_neg hp]
      exact ih

theorem stringify_obj_congr (props : List String)
    (fs1 fs2 : List (String × Json))
    (hget : ∀ k, jsGet fs1 k = jsGet fs2 k) :
    stringifyWith props (Json.obj fs1) = stringifyWith props (Json.obj fs2) := by
  have hre : props.filterMap (fun k => fs1.find? (fun q => q.1 == k)) =
      props.filterMap (fun k => fs2.find? (fun q => q.1 == k)) := by
    apply List.filterMap_congr
    intro k _
    rw [find?_eq_jsGet, find?_eq_jsGet, hget k]
  rw [stringifyWith, stringifyWith]
  rw [List.attach_map_val
    (props.filterMap (fun k => fs1.find? (fun q => q.1 == k)))
    (fun p => quoteStr p.1 ++ ":" ++ stringifyWith props p.2)]
  rw [List.attach_map_val
    (props.filterMap (fun k => fs2.find? (fun q => q.1 == k)))
    (fun p => quoteStr p.1 ++ ":" ++ stringifyWith props p.2)]
  rw [hre]

/-- C8: generateKey canonicalizes cosmetic differences — two queries
identical up to whitespace runs, paired with variables objects equal
up to top-level field order (with no duplicate field names), produce
the same cache key.  Totality holds by construction: generateKey is a
total function on all query strings and JSON-valued variables objects
(the values JSON.parse can produce). -/
theorem c8_generate_key_canonical (q1 q2 : String)
    (v1 v2 : Option (List (String × Json)))
    (hq : WsEquiv q1.toList q2.toList) (hv : VarsEquiv v1 v2) :
    ServerCache.generateKey q1 v1 = ServerCache.generateKey q2 v2 := by
  cases v1 with
  | none =>
    cases v2 with
    | none =>
      show normalizeQuery q1 ++ "::" ++ "" =
        normalizeQuery q2 ++ "::" ++ ""
      rw [normalizeQuery_wsEquiv q1 q2 hq]
    | some fs2 => exact absurd hv (by simp [VarsEquiv])
  | some fs1 =>
    cases v2 with
    | none => exact absurd hv (by simp [VarsEquiv])
    | some fs2 =>
      obtain ⟨hperm, hnd⟩ := hv
      show normalizeQuery q1 ++ "::" ++
          stringifyWith (sortedKeys fs1) (Json.obj fs1) =
        normalizeQuery q2 ++ "::" ++
          stringifyWith (sortedKeys fs2) (Json.obj fs2)
      rw [normalizeQuery_wsEquiv q1 q2 hq, sortedKeys_perm fs1 fs2 hperm,
        stringify_obj_congr (sortedKeys fs2) fs1 fs2
          (jsGet_perm fs1 fs2 hperm hnd)]

/-- C8 witness: "query  a" with doubled space and reordered variables
collides with "query a" and sorted variables. -/
theorem c8_generate_key_canonical_witness :
    WsEquiv ("query  a").toList ("query a").toList ∧
    VarsEquiv (some [("b", Json.num 1), ("a", Json.num 2)])
      (some [("a", Json.num 2), ("b", Json.num 1)]) ∧
    ServerCache.generateKey "query  a"
        (some [("b", Json.num 1), ("a", Json.num 2)]) =
      ServerCache.generateKey "query a"
        (some [("a", Json.num 2), ("b", Json.num 1)]) := by
  have hq : WsEquiv ("query  a").toList ("query a").toList := by
    have h5 : WsEquiv ['a'] ['a'] :=
      WsEquiv.cons 'a' [] [] (by decide) WsEquiv.nil
    have h4 : WsEquiv (' ' :: ' ' :: ['a']) (' ' :: ['a']) :=
      WsEquiv.ws [' ', ' '] [' '] ['a'] ['a']
        ⟨by decide, by decide⟩ ⟨by decide, by decide⟩ h5
    have h3 : WsEquiv ('y' :: ' ' :: ' ' :: ['a'])
        ('y' :: ' ' :: ['a']) :=
      WsEquiv.cons 'y' _ _ (by decide) h4
    have h2 : WsEquiv ('r' :: 'y' :: ' ' :: ' ' :: ['a'])
        ('r' :: 'y' :: ' ' :: ['a']) :=
      WsEquiv.cons 'r' _ _ (by decide) h3
    have h1 : WsEquiv ('e' :: 'r' :: 'y' :: ' ' :: ' ' :: ['a'])
        ('e' :: 'r' :: 'y' :: ' ' :: ['a']) :=
      WsEquiv.cons 'e' _ _ (by decide) h2
    have h0 : WsEquiv ('u' :: 'e' :: 'r' :: 'y' :: ' ' :: ' ' :: ['a'])
        ('u' :: 'e' :: 'r' :: 'y' :: ' ' :: ['a']) :=
      WsEquiv.cons 'u' _ _ (by decide) h1
    exact WsEquiv.cons 'q' _ _ (by decide) h0
  have hv : VarsEquiv (some [("b", Json.num 1), ("a", Json.num 2)])
      (some [("a", Json.num 2), ("b", Json.num 1)]) :=
    ⟨List.Perm.swap _ _ _, by decide⟩
  exact ⟨hq, hv, c8_generate_key_canonical _ _ _ _ hq hv⟩

/-- C10: a request carrying both credentials (publicId and secretKey
non-empty, so `hasAuth` is true) bypasses the response cache on both
sides: the handler never answers it from a cached entry, and the
server cache state after the call is exactly the state before it, so
nothing this request saw upstream is ever stored. -/
theorem c10_auth_cache_bypass (now : Int) (ip : String) (req : PostBody)
    (upstream : Except Nat Json) (s0 : ProxyState)
    (hauth : req.hasAuth = true) :
    (∀ d b, (handlePOST now ip req upstream s0).1 ≠
      PostResponse.cacheHit d b) ∧
    (handlePOST now ip req upstream s0).2.serverCache =
      s0.serverCache := by
  unfold handlePOST
  simp only [shouldSkipCache, hauth, not_true_eq_false, false_and,
    if_false]
  refine ⟨fun d b => ?_, ?_⟩ <;>
    · repeat' split
      all_goals simp_all

theorem c10_auth_cache_bypass_witness :
    (PostBody.hasAuth
        ⟨some "query x", none, some "pid", some "sk"⟩ = true) ∧
    ((∀ d b,
        (handlePOST 0 "ip"
            ⟨some "query x", none, some "pid", some "sk"⟩
            (Except.ok (Json.obj []))
            ⟨⟨[], 0⟩, ServerCacheState.empty⟩).1 ≠
          PostResponse.cacheHit d b) ∧
      (handlePOST 0 "ip"
          ⟨some "query x", none, some "pid", some "sk"⟩
          (Except.ok (Json.obj []))
          ⟨⟨[], 0⟩, ServerCacheState.empty⟩).2.serverCache =
        ServerCacheState.empty) :=
  ⟨by decide,
    c10_auth_cache_bypass 0 "ip"
      ⟨some "query x", none, some "pid", some "sk"⟩
      (Except.ok (Json.obj []))
      ⟨⟨[], 0⟩, ServerCacheState.empty⟩ (by decide)⟩
